import Mathlib

/-!
A shallow embedding of `wptrunner/manifestupdate.py`: the expectation-
reconciliation engine.  `TestNode.set_result` accumulates new evidence,
`TestNode.coalesce_expected` folds it back into the stored conditional
`expected` attribute, and `group_conditionals` / `make_expr` synthesize
discriminating boolean conditions when evidence diverges.

Python machine values that appear in `run_info` dictionaries are modelled by
`PVal` (strings, integer numbers and booleans); fallible Python code
(assertions, `KeyError`, `list.remove` misses) is modelled with
`Except UErr`.  Python object identity for the stored conditional values is
modelled by a numeric `id` field: every conditional value created by the
engine receives a fresh id from the node's `next_id` counter, so distinct
stored objects carry distinct ids.
-/

deriving instance DecidableEq for Except

namespace ManifestUpdate

/-- Errors raised by the Python code: the `assert` statements
(`AssertionError`), dictionary indexing misses (`KeyError`),
`list.remove` on a missing element (`ValueError`), the
`assert self.default_status == result.default_expected` in `set_result`
(the spec's `InconsistentDefault`), and a failure to evaluate a condition
expression against a `run_info` dictionary. -/
inductive UErr where
  | inconsistentDefault
  | assertionError
  | keyError
  | valueError
  | evalError
deriving DecidableEq

/-- A Python value stored in a `run_info` environment descriptor:
a string, an integer number, or a boolean (`debug`). -/
inductive PVal where
  | str (s : String)
  | num (n : Int)
  | bool (b : Bool)
deriving DecidableEq

/-- An environment descriptor: the `run_info` dictionary, modelled as an
association list from property name to value (dictionaries have no
duplicate keys). -/
abbrev RunInfo := List (String × PVal)

/-- `Result = namedtuple("Result", ["run_info", "status"])`. -/
structure Result where
  run_info : RunInfo
  status : String
deriving DecidableEq

/-- The boolean-expression AST fragment built by `make_expr` out of the
`wptmanifest.node` constructors: `VariableNode`, `StringNode`,
`NumberNode`, `BinaryExpressionNode(BinaryOperatorNode(op), _, _)` and
`UnaryExpressionNode(UnaryOperatorNode(op), _)`. -/
inductive Expr where
  | variable (name : String)
  | strLit (s : String)
  | numLit (n : Int)
  | binary (op : String) (l r : Expr)
  | unary (op : String) (e : Expr)
deriving DecidableEq

/-- Python truthiness of a value (`if value:`). -/
def PVal.toBool : PVal → Bool
  | .str s => s ≠ ""
  | .num n => n ≠ 0
  | .bool b => b

/-- Python `==` on values: numbers compare across `bool`/`int`
(`True == 1`), all other cross-type comparisons are `False`. -/
def PVal.pyEq : PVal → PVal → Bool
  | .str a, .str b => a = b
  | .num a, .num b => a = b
  | .bool a, .bool b => a = b
  | .bool a, .num b => (if a then (1 : Int) else 0) = b
  | .num a, .bool b => a = (if b then (1 : Int) else 0)
  | _, _ => false

/-- Dictionary indexing `run_info[prop]`: the value bound to the first
matching key, if any. -/
def lookupRI (ri : RunInfo) (p : String) : Option PVal :=
  (List.find? (fun q => q.1 = p) ri).map (fun q => q.2)

/-- Evaluation of a condition expression against a `run_info` dictionary,
as the compiled `wptmanifest` expressions do it: variables index into
`run_info` (a missing key is an error), `==` is Python equality, `and`
short-circuits returning one of its operands, `not` negates truthiness. -/
def evalExpr : Expr → RunInfo → Option PVal
  | .variable p, ri => lookupRI ri p
  | .strLit s, _ => some (.str s)
  | .numLit n, _ => some (.num n)
  | .binary op l r, ri =>
    match op with
    | "==" => do
      let v1 ← evalExpr l ri
      let v2 ← evalExpr r ri
      pure (.bool (v1.pyEq v2))
    | "and" => do
      let v1 ← evalExpr l ri
      if v1.toBool then evalExpr r ri else pure v1
    | _ => none
  | .unary op e, ri =>
    match op with
    | "not" => do
      let v ← evalExpr e ri
      pure (.bool (!v.toBool))
    | _ => none

/-- The condition part of a `ConditionalNode` produced by `make_expr`:
`root.append(node); root.append(StringNode(status))`, so `children[0]` is
the condition expression and `children[1]` the status literal. -/
structure ConditionalNode where
  condition : Expr
  value : String
deriving DecidableEq

/-- The literal node `value_cls(unicode(value))` chosen in `make_expr`:
a `NumberNode` for numeric values (`type(value) in (int, float, long)`;
note Python `bool` is not in that tuple) and a `StringNode` otherwise
(`unicode(True) = "True"`). -/
def litNode : PVal → Expr
  | .num n => .numLit n
  | .str s => .strLit s
  | .bool b => .strLit (if b then "True" else "False")

/-- The per-property expression built by `make_expr`: for a property in
`no_value_props` (only `debug`) a bare variable reference or its negation,
otherwise an equality test against the literal value. -/
def propExpr (p : String) (v : PVal) : Expr :=
  if p = "debug" then
    if v.toBool then .variable p
    else .unary "not" (.variable p)
  else .binary "==" (.variable p) (litNode v)

/-- The right-to-left `and`-chain of `make_expr`:
`prev = expressions[-1]; for curr in reversed(expressions[:-1]):
prev = and(curr, prev)`.  The empty case is unreachable (guarded by the
assertion in `make_expr`). -/
def buildAnd : List Expr → Expr
  | [] => .strLit ""
  | [e] => e
  | e :: e' :: rest => .binary "and" e (buildAnd (e' :: rest))

/-- `make_expr(prop_set, status)`: asserts `len(prop_set) > 0`, builds one
expression per `(prop, value)` pair and chains them with `and`. -/
def make_expr (prop_set : List (String × PVal)) (status : String) :
    Except UErr ConditionalNode :=
  if prop_set = [] then .error .assertionError
  else .ok ⟨buildAnd (prop_set.map (fun q => propExpr q.1 q.2)), status⟩

/-- Whether a `(prop, value)` pair occurs in some input `run_info`, i.e.
whether `by_property` has an entry for it in `group_conditionals`. -/
def isCandidate (values : List Result) (p : String) (v : PVal) : Bool :=
  values.any (fun r => (p, v) ∈ r.run_info)

/-- The number of distinct statuses collected in `by_property[(p, v)]`:
statuses of the Results whose `run_info` carries the pair `(p, v)`. -/
def statusCount (values : List Result) (p : String) (v : PVal) : Nat :=
  (((values.filter (fun r => (p, v) ∈ r.run_info)).map
      (fun r => r.status)).eraseDups).length

/-- The pruning step of `group_conditionals`: when there is more than one
Result, `del by_property[key]` for every key whose distinct-status count
equals the total Result count. -/
def discarded (values : List Result) (p : String) (v : PVal) : Bool :=
  decide (1 < values.length) && (statusCount values p v = values.length)

/-- A `(prop, value)` pair that is still a key of `by_property` after the
pruning step. -/
def survives (values : List Result) (p : String) (v : PVal) : Bool :=
  isCandidate values p v && !(discarded values p v)

/-- The fixed discriminator priority `prop_order` of `group_conditionals`. -/
def prop_order : List String := ["debug", "os", "version", "processor", "bits"]

/-- `include_props`: the members of `prop_order` that name a surviving
`by_property` key. -/
def include_props (values : List Result) : List String :=
  prop_order.filter (fun p =>
    values.any (fun r => r.run_info.any (fun q => q.1 = p && survives values p q.2)))

/-- `tuple((prop, run_info[prop]) for prop in include_props)`: a missing
property raises `KeyError`. -/
def buildPropSet (ri : RunInfo) : List String → Except UErr (List (String × PVal))
  | [] => .ok []
  | p :: ps =>
    match lookupRI ri p with
    | some v => (buildPropSet ri ps).map (fun rest => (p, v) :: rest)
    | none => .error .keyError

/-- The `conditions` loop of `group_conditionals`: walk the Results in
order, skip a Result whose signature was already seen, otherwise call
`make_expr` and record the synthesized condition keyed by the signature.
The output carries the conditions in first-seen order. -/
def groupGo (ip : List String) :
    List Result → List (List (String × PVal)) →
    Except UErr (List (ConditionalNode × String))
  | [], _ => .ok []
  | r :: rest, seen =>
    match buildPropSet r.run_info ip with
    | .error e => .error e
    | .ok ps =>
      if ps ∈ seen then groupGo ip rest seen
      else
        match make_expr ps r.status with
        | .error e => .error e
        | .ok cn => (groupGo ip rest (seen ++ [ps])).map
            (fun out => (cn, r.status) :: out)

/-- `group_conditionals(values)`. -/
def group_conditionals (values : List Result) :
    Except UErr (List (ConditionalNode × String)) :=
  groupGo (include_props values) values []

/-- The property names tested by an expression, in test order (in-order
traversal of the AST). -/
def exprProps : Expr → List String
  | .variable p => [p]
  | .strLit _ => []
  | .numLit _ => []
  | .binary _ l r => exprProps l ++ exprProps r
  | .unary _ e => exprProps e

/-- A compiled conditional value stored under the `expected` attribute:
`condition_node` (`none` for the unconditional entry) and the stored
status `value`.  The `id` field models Python object identity (every
value the engine creates gets a fresh id). -/
structure CondVal where
  id : Nat
  condition_node : Option Expr
  value : String
deriving DecidableEq

/-- Calling a compiled conditional value on a `run_info`
(`if cond(run_info):`).  Modelled from the spec: an entry with no
predicate is the default fallback and matches every descriptor; a
conditional entry evaluates its condition, with Python truthiness. -/
def evalCV (cv : CondVal) (ri : RunInfo) : Option Bool :=
  match cv.condition_node with
  | none => some true
  | some e => (evalExpr e ri).map PVal.toBool

/-- The argument of `set_result`: the harness result object, carrying its
observed `status` and the `default_expected` status implied by the test
type. -/
structure ResultIn where
  status : String
  default_expected : String
deriving DecidableEq

/-- The mutable state of a `TestNode` that the engine reads and writes:
`updated_expected` (each stored conditional value paired with the list of
new Results that matched it), `new_expected` (unplaced evidence),
`default_status`, the stored `expected` attribute of `self._data`
(`none` when the key is absent, `some []` when present but emptied),
whether a `KeyValueNode` named `expected` is still among the node's AST
children, the `root.modified` dirty flag of the owning file node, and the
fresh-id counter modelling object allocation. -/
structure TestNodeState where
  updated_expected : List (CondVal × List Result)
  new_expected : List Result
  default_status : Option String
  expected : Option (List CondVal)
  has_expected : Bool
  modified : Bool
  next_id : Nat
deriving DecidableEq

/-- The list stored under the `expected` key, or `[]` when absent. -/
def expList (d : Option (List CondVal)) : List CondVal :=
  d.getD []

/-- The ids of the stored conditional values. -/
def expIds (d : Option (List CondVal)) : List Nat :=
  (expList d).map (fun e => e.id)

/-- `self._data["expected"].remove(value)` minus the AST-node cleanup:
drop the first element with the given identity. -/
def eraseId : List CondVal → Nat → List CondVal
  | [], _ => []
  | e :: rest, k => if e.id = k then rest else e :: eraseId rest k

/-- `ManifestItem.remove_value("expected", value)`.  Modelled from the
spec: removal of one stored entry of the named attribute; indexing a
missing key raises `KeyError` and removing a value that is not stored
raises `ValueError`.  The emptied list stays present (the final block of
`coalesce_expected` explicitly tests `len(self._data["expected"]) == 0`). -/
def removeValue (d : Option (List CondVal)) (k : Nat) :
    Except UErr (Option (List CondVal)) :=
  match d with
  | none => .error .keyError
  | some l => if l.any (fun e => e.id = k) then .ok (some (eraseId l k))
              else .error .valueError

/-- `conditional_value.value = result.status`: mutate the stored object
with the given identity (a no-op on the stored list when the object is
not stored there). -/
def updateValue (d : Option (List CondVal)) (k : Nat) (v : String) :
    Option (List CondVal) :=
  d.map (List.map (fun e => if e.id = k then { e with value := v } else e))

/-- `ManifestItem.set("expected", v, condition)`.  Modelled from the
spec: setting the named attribute, optionally restricted by a condition;
an entry whose condition compares equal to the argument is updated in
place, otherwise a new entry is appended (creating the attribute and its
AST node when absent).  Condition nodes compare by object identity, and
the engine only ever passes `None` or a freshly built AST, so only a
`None` condition can match an existing entry.  Returns the new stored
list, the next fresh id and the new AST-node-present flag. -/
def setExpected (d : Option (List CondVal)) (cond : Option Expr) (v : String)
    (nid : Nat) (hasN : Bool) : Option (List CondVal) × Nat × Bool :=
  match d with
  | none => (some [⟨nid, cond, v⟩], nid + 1, true)
  | some l =>
    match cond with
    | none =>
      if l.any (fun e => e.condition_node = none) then
        (some (l.map (fun e =>
          if e.condition_node = none then { e with value := v } else e)), nid, hasN)
      else (some (l ++ [⟨nid, none, v⟩]), nid + 1, hasN)
    | some c => (some (l ++ [⟨nid, some c, v⟩]), nid + 1, hasN)

/-- `all(results[0].status == result.status for result in results)`. -/
def allSameStatus : List Result → Bool
  | [] => true
  | r :: rest => rest.all (fun x => x.status = r.status)

/-- `unconditional_status`: `self.get("expected")`, falling back to
`self.default_status` on `KeyError`.  Modelled from the spec: `get` with
no `run_info` returns the stored unconditional entry's value and raises
`KeyError` when the attribute is absent or has no unconditional entry. -/
def uncondStatus (st : TestNodeState) : Option String :=
  match st.expected with
  | some l =>
    match l.find? (fun e => e.condition_node = none) with
    | some e => some e.value
    | none => st.default_status
  | none => st.default_status

/-- The loop over `self.updated_expected` in `coalesce_expected`
(the per-tracked-condition pass): for each `(conditional_value, results)`
pair, leave untouched conditions with no matches, update or drop
conditions whose matches agree, drop disagreeing non-default conditions
moving their matches to `new_expected`, and move the disagreeing matches
of the default condition to `new_expected` unless they agree with
`unconditional_status`.  Returns the walked pair list (with the value
mutations visible through the shared objects), the new stored list and
the extended `new_expected`. -/
def phase1 (uncond : Option String) :
    List (CondVal × List Result) → Option (List CondVal) → List Result →
    Except UErr (List (CondVal × List Result) × Option (List CondVal) × List Result)
  | [], d, ne => .ok ([], d, ne)
  | (cv, rs) :: rest, d, ne =>
    match rs with
    | [] =>
      (phase1 uncond rest d ne).map
        (fun t => ((cv, []) :: t.1, t.2))
    | r0 :: rtl =>
      if allSameStatus (r0 :: rtl) then
        if some r0.status = uncond ∧ cv.condition_node ≠ none then
          match removeValue d cv.id with
          | .error e => .error e
          | .ok d' =>
            (phase1 uncond rest d' ne).map
              (fun t => ((cv, r0 :: rtl) :: t.1, t.2))
        else
          (phase1 uncond rest (updateValue d cv.id r0.status) ne).map
            (fun t => (({ cv with value := r0.status }, r0 :: rtl) :: t.1, t.2))
      else if cv.condition_node ≠ none then
        match removeValue d cv.id with
        | .error e => .error e
        | .ok d' =>
          (phase1 uncond rest d' (ne ++ (r0 :: rtl))).map
            (fun t => ((cv, r0 :: rtl) :: t.1, t.2))
      else
        (phase1 uncond rest d
            (ne ++ (r0 :: rtl).filter (fun r => !(some r.status = uncond : Bool)))).map
          (fun t => ((cv, r0 :: rtl) :: t.1, t.2))

/-- The `if self.new_expected:` block of `coalesce_expected`: when all
unplaced Results agree and there were no tracked conditions, write a
single unconditional entry unless the status is the default; otherwise
synthesize conditions with `group_conditionals` and append each one whose
status differs from `unconditional_status`. -/
def phase2 (uncond default_status : Option String) (updEmpty : Bool)
    (ne : List Result) (d : Option (List CondVal)) (nid : Nat) (hasN : Bool) :
    Except UErr (Option (List CondVal) × Nat × Bool) :=
  match ne with
  | [] => .ok (d, nid, hasN)
  | r0 :: rtl =>
    if allSameStatus (r0 :: rtl) ∧ updEmpty then
      if some r0.status ≠ default_status then
        .ok (setExpected d none r0.status nid hasN)
      else .ok (d, nid, hasN)
    else
      match group_conditionals (r0 :: rtl) with
      | .error e => .error e
      | .ok conds =>
        .ok (conds.foldl
          (fun acc cs =>
            if some cs.2 ≠ uncond then
              setExpected acc.1 (some cs.1.condition) cs.2 acc.2.1 acc.2.2
            else acc)
          (d, nid, hasN))

/-- The first final block of `coalesce_expected`: drop a trailing
unconditional entry whose value equals `default_status`. -/
def cleanup1 (st : TestNodeState) : TestNodeState :=
  match st.expected with
  | some l =>
    match l.getLast? with
    | some e =>
      if e.condition_node = none ∧ some e.value = st.default_status then
        { st with expected := some (eraseId l e.id) }
      else st
    | none => st
  | none => st

/-- The second final block: remove the `expected` `KeyValueNode` from the
node's AST children when the stored list has become empty. -/
def cleanup (st : TestNodeState) : TestNodeState :=
  let st1 := cleanup1 st
  if st1.expected = some [] then { st1 with has_expected := false } else st1

/-- `TestNode.coalesce_expected`. -/
def coalesce_expected (st : TestNodeState) : Except UErr TestNodeState :=
  match phase1 (uncondStatus st) st.updated_expected st.expected st.new_expected with
  | .error e => .error e
  | .ok t1 =>
    match phase2 (uncondStatus st) st.default_status t1.1.isEmpty t1.2.2 t1.2.1
        st.next_id st.has_expected with
    | .error e => .error e
    | .ok t2 =>
      .ok (cleanup { st with
        updated_expected := t1.1
        new_expected := t1.2.2
        expected := t2.1
        next_id := t2.2.1
        has_expected := t2.2.2 })

/-- The scan over `self.updated_expected` in `set_result`: find the first
condition whose predicate evaluates true on `run_info`, append the Result
to its matched list and report whether the observed status differs from
the condition's stored value; `none` when no condition matches. -/
def setResultGo (ri : RunInfo) (status : String) :
    List (CondVal × List Result) →
    Except UErr (Option (List (CondVal × List Result) × Bool))
  | [] => .ok none
  | (cv, rs) :: rest =>
    match evalCV cv ri with
    | none => .error .evalError
    | some true =>
      .ok (some ((cv, rs ++ [⟨ri, status⟩]) :: rest, status ≠ cv.value))
    | some false =>
      (setResultGo ri status rest).map
        (Option.map (fun t => ((cv, rs) :: t.1, t.2)))

/-- The body of `set_result` after the `default_status` check: route the
Result to the first matching tracked condition (marking the file dirty
when the status disagrees with the stored value), or append it to
`new_expected` (always marking dirty); `ds` is the adopted default. -/
def set_result_core (st : TestNodeState) (ri : RunInfo) (r : ResultIn)
    (ds : Option String) : Except UErr TestNodeState :=
  match setResultGo ri r.status st.updated_expected with
  | .error e => .error e
  | .ok (some t) =>
    .ok { st with default_status := ds, updated_expected := t.1,
                  modified := st.modified || t.2 }
  | .ok none =>
    .ok { st with default_status := ds,
                  new_expected := st.new_expected ++ [⟨ri, r.status⟩],
                  modified := true }

/-- `TestNode.set_result(run_info, result)`: check/adopt
`default_status` (the `assert` is the spec's `InconsistentDefault`),
then route the Result through the tracked conditions. -/
def set_result (st : TestNodeState) (ri : RunInfo) (r : ResultIn) :
    Except UErr TestNodeState :=
  match st.default_status with
  | some d =>
    if d = r.default_expected then set_result_core st ri r (some d)
    else .error .inconsistentDefault
  | none => set_result_core st ri r (some r.default_expected)

/-! ## General helper lemmas -/

theorem except_map_ok {α β γ : Type} {f : α → β} {x : Except γ α} {y : β} :
    x.map f = .ok y ↔ ∃ a, x = .ok a ∧ f a = y := by
  cases x <;> simp [Except.map]

theorem allSameStatus_of_forall {S : String} {r0 : Result} {rtl : List Result}
    (h : ∀ r ∈ r0 :: rtl, r.status = S) : allSameStatus (r0 :: rtl) = true := by
  simp only [allSameStatus, List.all_eq_true, decide_eq_true_eq]
  intro x hx
  rw [h x (List.mem_cons_of_mem _ hx), h r0 (List.mem_cons_self _ _)]

/-! ## C10: empty synthesized signature crashes `make_expr` -/

/-- C10: `make_expr` asserts a non-empty property set, but
`group_conditionals` can reach it with an empty signature.  At the
concrete input of two Results with identical descriptors
`{os: "linux"}` and distinct statuses, every candidate discriminator is
pruned (its distinct-status count equals the Result count), no property
is selected, and the synthesizer fails with the assertion error instead
of returning conditions. -/
theorem group_conditionals_empty_signature :
    (([⟨[("os", PVal.str "linux")], "PASS"⟩,
       ⟨[("os", PVal.str "linux")], "FAIL"⟩] : List Result).map
        Result.status).eraseDups.length = 2 ∧
    include_props [⟨[("os", PVal.str "linux")], "PASS"⟩,
                   ⟨[("os", PVal.str "linux")], "FAIL"⟩] = [] ∧
    make_expr [] "PASS" = .error .assertionError ∧
    group_conditionals [⟨[("os", PVal.str "linux")], "PASS"⟩,
                        ⟨[("os", PVal.str "linux")], "FAIL"⟩] =
      .error .assertionError := by
  decide

/-! ## C5: the discriminator-pruning rule -/

/-- C5 (counterexample): the claim says a candidate discriminator is
discarded exactly when its distinct-status count equals the total Result
count, over every input.  On the single-Result input
`[{os: "linux"} -> "FAIL"]` the candidate `("os", "linux")` collects one
distinct status, equal to the total Result count `1`, yet the pruning
loop is guarded by `len(values) > 1` and the candidate survives. -/
theorem discard_rule_single_result :
    isCandidate [⟨[("os", PVal.str "linux")], "FAIL"⟩] "os"
      (PVal.str "linux") = true ∧
    statusCount [⟨[("os", PVal.str "linux")], "FAIL"⟩] "os"
      (PVal.str "linux") =
      ([⟨[("os", PVal.str "linux")], "FAIL"⟩] : List Result).length ∧
    discarded [⟨[("os", PVal.str "linux")], "FAIL"⟩] "os"
      (PVal.str "linux") = false ∧
    survives [⟨[("os", PVal.str "linux")], "FAIL"⟩] "os"
      (PVal.str "linux") = true := by
  decide

/-- C5 (amended): when the input has more than one Result, a candidate
`(property, value)` discriminator is discarded (pruned from
`by_property`) exactly when the number of distinct statuses collected
over the Results carrying that binding equals the total number of input
Results; with at most one Result nothing is discarded. -/
theorem discard_rule (values : List Result) (p : String) (v : PVal)
    (hlen : 1 < values.length)
    (hc : isCandidate values p v = true) :
    survives values p v = false ↔ statusCount values p v = values.length := by
  simp [survives, discarded, hc, hlen]

/-- Witness for `discard_rule`: on two Results sharing `debug = true` but
with distinct statuses, the candidate `("debug", true)` collects two
distinct statuses over two Results and is discarded. -/
theorem discard_rule_witness :
    survives [⟨[("debug", PVal.bool true), ("os", PVal.str "linux")], "PASS"⟩,
              ⟨[("debug", PVal.bool true), ("os", PVal.str "win")], "FAIL"⟩]
      "debug" (PVal.bool true) = false :=
  (discard_rule _ "debug" (PVal.bool true) (by decide) (by decide)).mpr
    (by decide)

theorem setResultGo_ne_inconsistent (ri : RunInfo) (s : String)
    (l : List (CondVal × List Result)) :
    setResultGo ri s l ≠ .error .inconsistentDefault := by
  induction l with
  | nil => simp [setResultGo]
  | cons p rest ih =>
    obtain ⟨cv, rs⟩ := p
    simp only [setResultGo]
    cases h : evalCV cv ri with
    | none => simp
    | some b =>
      cases b
      · cases hgo : setResultGo ri s rest with
        | error e =>
          rw [hgo] at ih
          simp only [Except.map]
          exact ih
        | ok a => simp [Except.map]
      · simp

theorem set_result_core_spec (st : TestNodeState) (ri : RunInfo)
    (r : ResultIn) (ds : Option String) :
    set_result_core st ri r ds ≠ .error .inconsistentDefault ∧
    ∀ st', set_result_core st ri r ds = .ok st' → st'.default_status = ds := by
  cases hgo : setResultGo ri r.status st.updated_expected with
  | error e =>
    have h := setResultGo_ne_inconsistent ri r.status st.updated_expected
    rw [hgo] at h
    have he : e ≠ .inconsistentDefault := fun hc => h (by rw [hc])
    constructor
    · simp [set_result_core, hgo, he]
    · simp [set_result_core, hgo]
  | ok a =>
    rcases a with _ | t <;> constructor
    · simp [set_result_core, hgo]
    · intro st' h'
      simp only [set_result_core, hgo, Except.ok.injEq] at h'
      rw [← h']
    · simp [set_result_core, hgo]
    · intro st' h'
      simp only [set_result_core, hgo, Except.ok.injEq] at h'
      rw [← h']

/-- C9: on the first Result ever recorded the node adopts the Result's
implied default status; on a later record, `set_result` fails with
`InconsistentDefault` if and only if the stored `default_status`
disagrees with the Result's implied default. -/
theorem set_result_default_check (st : TestNodeState) (ri : RunInfo)
    (r : ResultIn) :
    (st.default_status = none →
      set_result st ri r ≠ .error .inconsistentDefault ∧
      ∀ st', set_result st ri r = .ok st' →
        st'.default_status = some r.default_expected) ∧
    (∀ d, st.default_status = some d →
      (set_result st ri r = .error .inconsistentDefault ↔
        d ≠ r.default_expected)) := by
  constructor
  · intro h0
    simp only [set_result, h0]
    exact set_result_core_spec st ri r (some r.default_expected)
  · intro d hd
    by_cases hde : d = r.default_expected
    · simp only [ne_eq, hde, not_true_eq_false, iff_false]
      simp only [set_result, hd, if_pos hde]
      exact (set_result_core_spec st ri r (some d)).1
    · simp only [ne_eq, hde, not_false_eq_true, iff_true]
      simp only [set_result, hd, if_neg hde]

/-- Witness for `set_result_default_check`: a node whose adopted default
is `"PASS"` rejects a Result implying default `"FAIL"` with
`InconsistentDefault`. -/
theorem set_result_default_check_witness :
    set_result
      { updated_expected := [], new_expected := [],
        default_status := some "PASS", expected := none,
        has_expected := false, modified := false, next_id := 0 }
      [] ⟨"FAIL", "FAIL"⟩ = .error .inconsistentDefault :=
  ((set_result_default_check _ [] ⟨"FAIL", "FAIL"⟩).2 "PASS" rfl).mpr
    (by decide)

/-! ## C4: the single unconditional override -/

/-- C4 (amended): when the unplaced-evidence pool is non-empty, every
unplaced Result shares one status `S`, and the node has no tracked
conditions at all (`updated_expected` is empty, hence also no stored
`expected` attribute), `coalesce_expected` writes exactly one
unconditional entry with value `S`, skipping the write entirely when `S`
equals `default_status`.  (The code tests `not self.updated_expected` —
no tracked conditions at all — not "no surviving tracked conditions" as
the claim states; see `coalesce_lone_override_cex`.) -/
theorem coalesce_lone_override (st : TestNodeState) (S : String)
    (r0 : Result) (rtl : List Result)
    (hupd : st.updated_expected = [])
    (hexp : st.expected = none)
    (hne : st.new_expected = r0 :: rtl)
    (hS : ∀ r ∈ st.new_expected, r.status = S) :
    ∃ st', coalesce_expected st = .ok st' ∧
      (some S ≠ st.default_status →
        st'.expected = some [⟨st.next_id, none, S⟩] ∧
        st'.has_expected = true) ∧
      (some S = st.default_status →
        st'.expected = none ∧ st'.has_expected = st.has_expected) := by
  rw [hne] at hS
  have hr0 : r0.status = S := hS r0 (List.mem_cons_self _ _)
  have hall : allSameStatus (r0 :: rtl) = true := allSameStatus_of_forall hS
  have h1 : phase1 (uncondStatus st) st.updated_expected st.expected
      st.new_expected = .ok ([], none, r0 :: rtl) := by
    rw [hupd, hexp, hne]
    rfl
  by_cases hd : some S = st.default_status
  · have h2 : phase2 (uncondStatus st) st.default_status true (r0 :: rtl)
        none st.next_id st.has_expected = .ok (none, st.next_id, st.has_expected) := by
      simp only [phase2, hall, and_true, ite_true, ne_eq, hr0, hd,
        not_true_eq_false, if_false]
    refine ⟨{ st with updated_expected := [], new_expected := r0 :: rtl, expected := none }, ?_, fun h => absurd hd h, fun _ => ⟨rfl, rfl⟩⟩
    simp only [coalesce_expected, h1, List.isEmpty_nil, h2, cleanup, cleanup1]
    simp
  · have h2 : phase2 (uncondStatus st) st.default_status true (r0 :: rtl)
        none st.next_id st.has_expected =
        .ok (some [⟨st.next_id, none, S⟩], st.next_id + 1, true) := by
      simp only [phase2, hall, and_true, ite_true, ne_eq, hr0, hd,
        not_false_eq_true, if_true, setExpected]
    refine ⟨{ st with updated_expected := [], new_expected := r0 :: rtl, expected := some [⟨st.next_id, none, S⟩], has_expected := true, next_id := st.next_id + 1 }, ?_, fun _ => ⟨rfl, rfl⟩, fun h => absurd h hd⟩
    simp only [coalesce_expected, h1, List.isEmpty_nil, h2, cleanup, cleanup1,
      List.getLast?_singleton, hd, and_false, if_false, Option.some.injEq,
      if_neg (show ¬ (some [(⟨st.next_id, none, S⟩ : CondVal)] =
        some ([] : List CondVal)) by simp)]
    simp

/-- C4 (counterexample): the claim's trigger "there were no other
surviving tracked conditions" does not match the code, which requires
`updated_expected` to be empty.  Concretely: one tracked non-default
condition whose matches all agree with the unconditional status is
removed (so zero conditions survive), and the single unplaced Result has
the one status `"TIMEOUT"`, yet coalesce writes a conditional entry
(`os == "linux"`), not an unconditional one: afterwards no unconditional
entry is stored at all. -/
theorem coalesce_lone_override_cex :
    (coalesce_expected
      { updated_expected :=
          [(⟨0, some (.binary "==" (.variable "os") (.strLit "win")), "FAIL"⟩,
            [⟨[("os", PVal.str "win")], "PASS"⟩])],
        new_expected := [⟨[("os", PVal.str "linux")], "TIMEOUT"⟩],
        default_status := some "PASS",
        expected :=
          some [⟨0, some (.binary "==" (.variable "os") (.strLit "win")), "FAIL"⟩],
        has_expected := true, modified := true,
        next_id := 1 }).toOption.map
      (fun st' => ((expList st'.expected).filter
        (fun e => e.condition_node = none)).length) = some 0 := by
  decide

/-- Witness for `coalesce_lone_override`: a node with one unplaced
`"FAIL"` Result, no tracked conditions and default `"PASS"` ends up with
exactly one unconditional `"FAIL"` entry. -/
theorem coalesce_lone_override_witness :
    ∃ st', coalesce_expected
      { updated_expected := [],
        new_expected := [⟨[("os", PVal.str "linux")], "FAIL"⟩],
        default_status := some "PASS", expected := none,
        has_expected := false, modified := true, next_id := 5 } = .ok st' ∧
      st'.expected = some [⟨5, none, "FAIL"⟩] := by
  obtain ⟨st', h1, h2, -⟩ := coalesce_lone_override
    { updated_expected := [],
      new_expected := [⟨[("os", PVal.str "linux")], "FAIL"⟩],
      default_status := some "PASS", expected := none,
      has_expected := false, modified := true, next_id := 5 } "FAIL"
    ⟨[("os", PVal.str "linux")], "FAIL"⟩ [] rfl rfl rfl (by decide)
  exact ⟨st', h1, (h2 (by decide)).1⟩

/-! ## C3: first-match routing in `set_result` -/

theorem setResultGo_none (ri : RunInfo) (s : String)
    (l : List (CondVal × List Result))
    (hev : ∀ p ∈ l, (evalCV p.1 ri).isSome)
    (hno : ∀ p ∈ l, evalCV p.1 ri ≠ some true) :
    setResultGo ri s l = .ok none := by
  induction l with
  | nil => rfl
  | cons p rest ih =>
    obtain ⟨cv, rs⟩ := p
    have h1 := hev (cv, rs) (List.mem_cons_self _ _)
    have h2 := hno (cv, rs) (List.mem_cons_self _ _)
    cases h : evalCV cv ri with
    | none => rw [h] at h1; simp at h1
    | some b =>
      cases b
      · simp only [setResultGo, h]
        rw [ih (fun p hp => hev p (List.mem_cons_of_mem _ hp))
            (fun p hp => hno p (List.mem_cons_of_mem _ hp))]
        rfl
      · exact absurd h h2

theorem setResultGo_first (ri : RunInfo) (s : String)
    (l₁ : List (CondVal × List Result)) (cv : CondVal) (rs : List Result)
    (l₂ : List (CondVal × List Result))
    (hev : ∀ p ∈ l₁, (evalCV p.1 ri).isSome)
    (hno : ∀ p ∈ l₁, evalCV p.1 ri ≠ some true)
    (hcv : evalCV cv ri = some true) :
    setResultGo ri s (l₁ ++ (cv, rs) :: l₂) =
      .ok (some (l₁ ++ (cv, rs ++ [⟨ri, s⟩]) :: l₂,
        decide (s ≠ cv.value))) := by
  induction l₁ with
  | nil => simp [setResultGo, hcv]
  | cons p rest ih =>
    obtain ⟨cv₀, rs₀⟩ := p
    have h1 := hev (cv₀, rs₀) (List.mem_cons_self _ _)
    have h2 := hno (cv₀, rs₀) (List.mem_cons_self _ _)
    cases h : evalCV cv₀ ri with
    | none => rw [h] at h1; simp at h1
    | some b =>
      cases b
      · simp only [List.cons_append, setResultGo, h, List.append_eq]
        rw [ih (fun p hp => hev p (List.mem_cons_of_mem _ hp))
            (fun p hp => hno p (List.mem_cons_of_mem _ hp))]
        rfl
      · exact absurd h h2

/-- C3: `set_result` evaluates the tracked conditions' predicates in
stored order and appends the Result to the matched-results list of the
first condition whose predicate evaluates true, leaving every other
tracked pair and `new_expected` unchanged and setting the dirty flag iff
the observed status differs from that condition's stored value; when no
predicate evaluates true the Result is appended to `new_expected` and
the dirty flag is set unconditionally. -/
theorem set_result_first_match (st : TestNodeState) (ri : RunInfo)
    (r : ResultIn)
    (hdef : st.default_status = none ∨
      st.default_status = some r.default_expected)
    (heval : ∀ p ∈ st.updated_expected, (evalCV p.1 ri).isSome) :
    ((∀ p ∈ st.updated_expected, evalCV p.1 ri ≠ some true) →
      set_result st ri r = .ok { st with
        default_status := some r.default_expected,
        new_expected := st.new_expected ++ [⟨ri, r.status⟩],
        modified := true }) ∧
    (∀ l₁ cv rs l₂, st.updated_expected = l₁ ++ (cv, rs) :: l₂ →
      (∀ p ∈ l₁, evalCV p.1 ri ≠ some true) →
      evalCV cv ri = some true →
      set_result st ri r = .ok { st with
        default_status := some r.default_expected,
        updated_expected := l₁ ++ (cv, rs ++ [⟨ri, r.status⟩]) :: l₂,
        modified := st.modified || decide (r.status ≠ cv.value) }) := by
  have hred : set_result st ri r =
      set_result_core st ri r (some r.default_expected) := by
    rcases hdef with h0 | h0
    · simp only [set_result, h0]
    · simp [set_result, h0]
  constructor
  · intro hno
    rw [hred]
    simp only [set_result_core, setResultGo_none ri r.status _ heval hno]
  · intro l₁ cv rs l₂ hsplit hno hcv
    have hev₁ : ∀ p ∈ l₁, (evalCV p.1 ri).isSome := fun p hp =>
      heval p (hsplit ▸ List.mem_append_left _ hp)
    rw [hred]
    simp only [set_result_core, hsplit,
      setResultGo_first ri r.status l₁ cv rs l₂ hev₁ hno hcv]

/-- Witness for `set_result_first_match`: with a non-matching
`os == "win"` condition followed by the unconditional entry, a
`"TIMEOUT"` Result on `{os: "mac"}` is routed to the unconditional entry
(the second one) and the node is marked dirty. -/
theorem set_result_first_match_witness :
    ∃ st', set_result
      { updated_expected :=
          [(⟨0, some (.binary "==" (.variable "os") (.strLit "win")), "FAIL"⟩,
            []),
           (⟨1, none, "PASS"⟩, [])],
        new_expected := [], default_status := some "PASS", expected := none,
        has_expected := false, modified := false, next_id := 2 }
      [("os", PVal.str "mac")] ⟨"TIMEOUT", "PASS"⟩ = .ok st' :=
  ⟨_, (set_result_first_match _ [("os", PVal.str "mac")] ⟨"TIMEOUT", "PASS"⟩
      (Or.inr rfl) (by decide)).2
    [(⟨0, some (.binary "==" (.variable "os") (.strLit "win")), "FAIL"⟩, [])]
    ⟨1, none, "PASS"⟩ [] [] rfl (by decide) (by decide)⟩

/-! ## C6: discriminator order in synthesized predicates -/

theorem exprProps_propExpr (p : String) (v : PVal) :
    exprProps (propExpr p v) = [p] := by
  unfold propExpr
  split_ifs with h1 h2 <;> cases v <;> simp [exprProps, litNode]

theorem exprProps_chain : ∀ ps : List (String × PVal), ps ≠ [] →
    exprProps (buildAnd (ps.map (fun q => propExpr q.1 q.2))) =
      ps.map Prod.fst
  | [], h => absurd rfl h
  | [q], _ => by simp [buildAnd, exprProps_propExpr]
  | q :: q' :: rest, _ => by
    simp only [List.map_cons, buildAnd, exprProps, exprProps_propExpr]
    rw [show propExpr q'.1 q'.2 :: List.map (fun q => propExpr q.1 q.2) rest =
        List.map (fun q => propExpr q.1 q.2) (q' :: rest) from rfl]
    rw [exprProps_chain (q' :: rest) (List.cons_ne_nil _ _)]
    rfl

theorem make_expr_props (ps : List (String × PVal)) (s : String)
    (cn : ConditionalNode) (h : make_expr ps s = .ok cn) :
    exprProps cn.condition = ps.map Prod.fst := by
  unfold make_expr at h
  split at h
  · exact absurd h (by simp)
  · rw [Except.ok.injEq] at h
    rw [← h]
    exact exprProps_chain ps (by assumption)

theorem buildPropSet_fst (ri : RunInfo) :
    ∀ props ps, buildPropSet ri props = .ok ps → ps.map Prod.fst = props := by
  intro props
  induction props with
  | nil =>
    intro ps h
    rw [show buildPropSet ri [] = .ok [] from rfl, Except.ok.injEq] at h
    rw [← h]
    rfl
  | cons p rest ih =>
    intro ps h
    cases hl : lookupRI ri p with
    | none =>
      simp only [buildPropSet, hl] at h
      exact Except.noConfusion h
    | some v =>
      simp only [buildPropSet, hl] at h
      rcases except_map_ok.mp h with ⟨tail, htail, hcons⟩
      rw [← hcons]
      simp [ih tail htail]

theorem groupGo_props (ip : List String) :
    ∀ vals seen out, groupGo ip vals seen = .ok out →
      ∀ c ∈ out, exprProps c.1.condition = ip := by
  intro vals
  induction vals with
  | nil =>
    intro seen out h c hc
    rw [show groupGo ip [] seen = .ok [] from rfl, Except.ok.injEq] at h
    rw [← h] at hc
    exact absurd hc (List.not_mem_nil c)
  | cons r rest ih =>
    intro seen out h c hc
    cases hb : buildPropSet r.run_info ip with
    | error e =>
      simp only [groupGo, hb] at h
      exact Except.noConfusion h
    | ok ps =>
      simp only [groupGo, hb] at h
      by_cases hseen : ps ∈ seen
      · rw [if_pos hseen] at h
        exact ih seen out h c hc
      · rw [if_neg hseen] at h
        cases hm : make_expr ps r.status with
        | error e =>
          simp only [hm] at h
          exact Except.noConfusion h
        | ok cn =>
          simp only [hm] at h
          rcases except_map_ok.mp h with ⟨out', hout', hcons⟩
          rw [← hcons] at hc
          rcases List.mem_cons.mp hc with hc | hc
          · rw [hc]
            exact (make_expr_props ps r.status cn hm).trans
              (buildPropSet_fst r.run_info ip ps hb)
          · exact ih (seen ++ [ps]) out' hout' c hc

/-- C6: every predicate synthesized by `group_conditionals` tests
exactly the selected discriminator properties `include_props`, in that
order, and `include_props` is a sublist of the fixed priority order
`debug, os, version, processor, bits`. -/
theorem group_conditionals_prop_order (values : List Result)
    (out : List (ConditionalNode × String))
    (h : group_conditionals values = .ok out) :
    (∀ c ∈ out, exprProps c.1.condition = include_props values) ∧
    List.Sublist (include_props values) prop_order :=
  ⟨groupGo_props (include_props values) values [] out h,
   List.filter_sublist _⟩

/-- Witness for `group_conditionals_prop_order`: two Results differing
in `os` synthesize predicates that each test exactly `["os"]`. -/
theorem group_conditionals_prop_order_witness :
    ∃ out, group_conditionals
        [⟨[("os", PVal.str "linux")], "PASS"⟩,
         ⟨[("os", PVal.str "win")], "FAIL"⟩] = .ok out ∧
      ∀ c ∈ out, exprProps c.1.condition = ["os"] := by
  have h : group_conditionals
      [⟨[("os", PVal.str "linux")], "PASS"⟩,
       ⟨[("os", PVal.str "win")], "FAIL"⟩] =
      .ok [(⟨.binary "==" (.variable "os") (.strLit "linux"), "PASS"⟩, "PASS"),
           (⟨.binary "==" (.variable "os") (.strLit "win"), "FAIL"⟩, "FAIL")] := by
    decide
  refine ⟨_, h, fun c hc => ?_⟩
  exact ((group_conditionals_prop_order _ _ h).1 c hc).trans (by decide)

/-! ## Helper lemmas about `eraseId`, `updateValue`, `removeValue` -/

theorem eraseId_sublist (l : List CondVal) (k : Nat) :
    List.Sublist (eraseId l k) l := by
  induction l with
  | nil => simp [eraseId]
  | cons e rest ih =>
    simp only [eraseId]
    split
    · exact List.Sublist.cons e (List.Sublist.refl rest)
    · exact List.Sublist.cons₂ e ih

theorem mem_eraseId_of_ne {e : CondVal} {l : List CondVal} {k : Nat}
    (he : e ∈ l) (hne : e.id ≠ k) : e ∈ eraseId l k := by
  induction l with
  | nil => exact absurd he (List.not_mem_nil e)
  | cons x rest ih =>
    simp only [eraseId]
    split
    · rcases List.mem_cons.mp he with h | h
      · exact absurd (h ▸ (by assumption)) hne
      · exact h
    · rcases List.mem_cons.mp he with h | h
      · exact h ▸ List.mem_cons_self _ _
      · exact List.mem_cons_of_mem _ (ih h)

theorem not_mem_ids_eraseId_self {l : List CondVal} {k : Nat}
    (hn : (l.map CondVal.id).Nodup) : k ∉ (eraseId l k).map CondVal.id := by
  induction l with
  | nil => simp [eraseId]
  | cons e rest ih =>
    simp only [List.map_cons, List.nodup_cons] at hn
    simp only [eraseId]
    split
    · intro hc
      apply hn.1
      rwa [(by assumption : e.id = k)]
    · simp only [List.map_cons, List.mem_cons]
      push_neg
      exact ⟨fun hk => (by assumption : ¬ e.id = k) hk.symm, ih hn.2⟩

theorem ids_eraseId_subset {l : List CondVal} {k k' : Nat}
    (h : k' ∈ (eraseId l k).map CondVal.id) : k' ∈ l.map CondVal.id :=
  ((eraseId_sublist l k).map CondVal.id).subset h

theorem eraseId_append_left {l₁ : List CondVal} {k : Nat}
    (h : l₁.any (fun x => x.id = k) = true) (l₂ : List CondVal) :
    eraseId (l₁ ++ l₂) k = eraseId l₁ k ++ l₂ := by
  induction l₁ with
  | nil => simp at h
  | cons x rest ih =>
    simp only [List.cons_append, eraseId, List.append_eq]
    split
    · rfl
    · simp only [List.any_cons, Bool.or_eq_true, decide_eq_true_eq] at h
      rcases h with h | h
      · exact absurd h (by assumption)
      · rw [ih (by simpa using h)]
        rfl

theorem eraseId_append_right {l₁ : List CondVal} {k : Nat}
    (h : ∀ x ∈ l₁, x.id ≠ k) (l₂ : List CondVal) :
    eraseId (l₁ ++ l₂) k = l₁ ++ eraseId l₂ k := by
  induction l₁ with
  | nil => rfl
  | cons x rest ih =>
    simp only [List.cons_append, eraseId, List.append_eq,
      if_neg (h x (List.mem_cons_self _ _))]
    rw [ih (fun y hy => h y (List.mem_cons_of_mem _ hy))]

theorem expList_updateValue (d : Option (List CondVal)) (k : Nat) (v : String) :
    expList (updateValue d k v) =
      (expList d).map (fun e => if e.id = k then { e with value := v } else e) := by
  cases d <;> rfl

theorem mem_updateValue_of_ne {e : CondVal} {d : Option (List CondVal)}
    {k : Nat} {v : String} (he : e ∈ expList d) (hne : e.id ≠ k) :
    e ∈ expList (updateValue d k v) := by
  rw [expList_updateValue]
  have h := List.mem_map_of_mem
    (fun x => if x.id = k then { x with value := v } else x) he
  simp only [if_neg hne] at h
  exact h

theorem mem_map_update_self {e : CondVal} {l : List CondVal} {v : String}
    (he : e ∈ l) :
    ({ e with value := v } : CondVal) ∈
      l.map (fun x => if x.id = e.id then { x with value := v } else x) := by
  have h := List.mem_map_of_mem
    (fun x => if x.id = e.id then { x with value := v } else x) he
  simp only [if_pos rfl] at h
  exact h

theorem ids_updateValue (d : Option (List CondVal)) (k : Nat) (v : String) :
    expIds (updateValue d k v) = expIds d := by
  unfold expIds
  rw [expList_updateValue]
  induction expList d with
  | nil => rfl
  | cons e rest ih =>
    simp only [List.map_cons, ih]
    congr 1
    split <;> rfl

theorem removeValue_ok {d d' : Option (List CondVal)} {k : Nat}
    (h : removeValue d k = .ok d') :
    ∃ l, d = some l ∧ l.any (fun e => e.id = k) = true ∧
      d' = some (eraseId l k) := by
  cases d with
  | none => exact Except.noConfusion h
  | some l =>
    simp only [removeValue] at h
    split at h
    · rw [Except.ok.injEq] at h
      exact ⟨l, rfl, by assumption, h.symm⟩
    · exact Except.noConfusion h

/-! ## Decomposition of `phase1` into single steps -/

/-- The effect of one iteration of the `coalesce_expected` loop on the
current conditional value: the same four branches as in `phase1`,
returning the (possibly mutated) conditional value and the new stored
list and `new_expected`. -/
def step1 (uncond : Option String) (cv : CondVal) (rs : List Result)
    (d : Option (List CondVal)) (ne : List Result) :
    Except UErr (CondVal × Option (List CondVal) × List Result) :=
  match rs with
  | [] => .ok (cv, d, ne)
  | r0 :: rtl =>
    if allSameStatus (r0 :: rtl) then
      if some r0.status = uncond ∧ cv.condition_node ≠ none then
        (removeValue d cv.id).map (fun d' => (cv, d', ne))
      else
        .ok ({ cv with value := r0.status }, updateValue d cv.id r0.status, ne)
    else if cv.condition_node ≠ none then
      (removeValue d cv.id).map (fun d' => (cv, d', ne ++ (r0 :: rtl)))
    else
      .ok (cv, d, ne ++ (r0 :: rtl).filter
        (fun r => !(some r.status = uncond : Bool)))

theorem phase1_cons (u : Option String) (cv : CondVal) (rs : List Result)
    (rest : List (CondVal × List Result)) (d : Option (List CondVal))
    (ne : List Result) :
    phase1 u ((cv, rs) :: rest) d ne =
      match step1 u cv rs d ne with
      | .error e => .error e
      | .ok s => (phase1 u rest s.2.1 s.2.2).map
          (fun t => ((s.1, rs) :: t.1, t.2)) := by
  cases rs with
  | nil => rfl
  | cons r0 rtl =>
    simp only [phase1, step1]
    by_cases hall : allSameStatus (r0 :: rtl) = true
    · rw [if_pos hall, if_pos hall]
      by_cases hcond : some r0.status = u ∧ cv.condition_node ≠ none
      · rw [if_pos hcond, if_pos hcond]
        cases hrm : removeValue d cv.id <;> rfl
      · rw [if_neg hcond, if_neg hcond]
    · rw [if_neg hall, if_neg hall]
      by_cases hcn : cv.condition_node ≠ none
      · rw [if_pos hcn, if_pos hcn]
        cases hrm : removeValue d cv.id <;> rfl
      · rw [if_neg hcn, if_neg hcn]

theorem step1_ok_d {u : Option String} {cv : CondVal} {rs : List Result}
    {d : Option (List CondVal)} {ne : List Result}
    {s : CondVal × Option (List CondVal) × List Result}
    (h : step1 u cv rs d ne = .ok s) :
    s.2.1 = d ∨
    (∃ l, d = some l ∧ l.any (fun e => e.id = cv.id) = true ∧
      s.2.1 = some (eraseId l cv.id)) ∨
    (∃ v, s.2.1 = updateValue d cv.id v) := by
  cases rs with
  | nil =>
    rw [show step1 u cv [] d ne = .ok (cv, d, ne) from rfl,
      Except.ok.injEq] at h
    rw [← h]
    exact Or.inl rfl
  | cons r0 rtl =>
    simp only [step1] at h
    by_cases hall : allSameStatus (r0 :: rtl) = true
    · rw [if_pos hall] at h
      by_cases hcond : some r0.status = u ∧ cv.condition_node ≠ none
      · rw [if_pos hcond] at h
        rcases except_map_ok.mp h with ⟨d', hd', hs⟩
        rcases removeValue_ok hd' with ⟨l, hl, hany, hde⟩
        refine Or.inr (Or.inl ⟨l, hl, hany, ?_⟩)
        rw [← hs, ← hde]
      · rw [if_neg hcond, Except.ok.injEq] at h
        rw [← h]
        exact Or.inr (Or.inr ⟨r0.status, rfl⟩)
    · rw [if_neg hall] at h
      by_cases hcn : cv.condition_node ≠ none
      · rw [if_pos hcn] at h
        rcases except_map_ok.mp h with ⟨d', hd', hs⟩
        rcases removeValue_ok hd' with ⟨l, hl, hany, hde⟩
        refine Or.inr (Or.inl ⟨l, hl, hany, ?_⟩)
        rw [← hs, ← hde]
      · rw [if_neg hcn, Except.ok.injEq] at h
        rw [← h]
        exact Or.inl rfl

theorem step1_ok_of_mem (u : Option String) {cv : CondVal} (rs : List Result)
    {d : Option (List CondVal)} (ne : List Result)
    (hm : cv ∈ expList d) : ∃ s, step1 u cv rs d ne = .ok s := by
  have hrv : removeValue d cv.id =
      .ok (some (eraseId (expList d) cv.id)) := by
    cases d with
    | none => exact absurd hm (List.not_mem_nil cv)
    | some l =>
      have hm' : cv ∈ l := hm
      simp only [removeValue, expList, Option.getD]
      rw [if_pos (List.any_eq_true.mpr ⟨cv, hm', by simp⟩)]
  cases rs with
  | nil => exact ⟨(cv, d, ne), rfl⟩
  | cons r0 rtl =>
    simp only [step1]
    by_cases hall : allSameStatus (r0 :: rtl) = true
    · rw [if_pos hall]
      by_cases hcond : some r0.status = u ∧ cv.condition_node ≠ none
      · rw [if_pos hcond, hrv]
        exact ⟨_, rfl⟩
      · rw [if_neg hcond]
        exact ⟨_, rfl⟩
    · rw [if_neg hall]
      by_cases hcn : cv.condition_node ≠ none
      · rw [if_pos hcn, hrv]
        exact ⟨_, rfl⟩
      · rw [if_neg hcn]
        exact ⟨_, rfl⟩

theorem phase1_nil (u : Option String) (d : Option (List CondVal))
    (ne : List Result) : phase1 u [] d ne = .ok ([], d, ne) := rfl

/-! ## Continuation lemmas for `phase1` -/

theorem phase1_mem_preserved {u : Option String} (k : Nat) (e : CondVal) :
    ∀ (upd : List (CondVal × List Result)) (d : Option (List CondVal))
      (ne : List Result) t,
      (∀ p ∈ upd, p.1.id ≠ k) → e.id = k → e ∈ expList d →
      phase1 u upd d ne = .ok t → e ∈ expList t.2.1 := by
  intro upd
  induction upd with
  | nil =>
    intro d ne t _ _ he h
    rw [phase1_nil, Except.ok.injEq] at h
    rw [← h]
    exact he
  | cons p rest ih =>
    intro d ne t hk hek he h
    obtain ⟨cv, rs⟩ := p
    rw [phase1_cons] at h
    cases hs : step1 u cv rs d ne with
    | error er =>
      simp only [hs] at h
      exact Except.noConfusion h
    | ok s =>
      simp only [hs] at h
      rcases except_map_ok.mp h with ⟨t', ht', hmap⟩
      have ht21 : t.2.1 = t'.2.1 := by rw [← hmap]
      rw [ht21]
      have hcv : cv.id ≠ k := hk (cv, rs) (List.mem_cons_self _ _)
      have hek' : e.id ≠ cv.id := fun hh => hcv (hh ▸ hek)
      have he' : e ∈ expList s.2.1 := by
        rcases step1_ok_d hs with hd | ⟨l, hdl, -, hd⟩ | ⟨v, hd⟩
        · rw [hd]; exact he
        · rw [hd]
          exact mem_eraseId_of_ne (by rw [hdl] at he; exact he) hek'
        · rw [hd]
          exact mem_updateValue_of_ne he hek'
      exact ih s.2.1 s.2.2 t'
        (fun p hp => hk p (List.mem_cons_of_mem _ hp)) hek he' ht'

theorem phase1_id_absent {u : Option String} (k : Nat) :
    ∀ (upd : List (CondVal × List Result)) (d : Option (List CondVal))
      (ne : List Result) t,
      k ∉ expIds d → phase1 u upd d ne = .ok t → k ∉ expIds t.2.1 := by
  intro upd
  induction upd with
  | nil =>
    intro d ne t he h
    rw [phase1_nil, Except.ok.injEq] at h
    rw [← h]
    exact he
  | cons p rest ih =>
    intro d ne t he h
    obtain ⟨cv, rs⟩ := p
    rw [phase1_cons] at h
    cases hs : step1 u cv rs d ne with
    | error er =>
      simp only [hs] at h
      exact Except.noConfusion h
    | ok s =>
      simp only [hs] at h
      rcases except_map_ok.mp h with ⟨t', ht', hmap⟩
      have ht21 : t.2.1 = t'.2.1 := by rw [← hmap]
      rw [ht21]
      have he' : k ∉ expIds s.2.1 := by
        rcases step1_ok_d hs with hd | ⟨l, hdl, -, hd⟩ | ⟨v, hd⟩
        · rw [hd]; exact he
        · rw [hd]
          intro hc
          apply he
          rw [hdl]
          exact ids_eraseId_subset hc
        · rw [hd, ids_updateValue]
          exact he
      exact ih s.2.1 s.2.2 t' he' ht'

theorem phase1_ok {u : Option String} :
    ∀ (upd : List (CondVal × List Result)) (d : Option (List CondVal))
      (ne : List Result),
      (upd.map (fun p => p.1.id)).Nodup →
      (∀ p ∈ upd, p.1 ∈ expList d) →
      ∃ t, phase1 u upd d ne = .ok t := by
  intro upd
  induction upd with
  | nil => exact fun d ne _ _ => ⟨([], d, ne), rfl⟩
  | cons p rest ih =>
    intro d ne hn hm
    obtain ⟨cv, rs⟩ := p
    obtain ⟨s, hs⟩ :=
      step1_ok_of_mem u rs ne (hm (cv, rs) (List.mem_cons_self _ _))
    simp only [List.map_cons, List.nodup_cons] at hn
    have hm' : ∀ p ∈ rest, p.1 ∈ expList s.2.1 := by
      intro p hp
      have hpid : p.1.id ≠ cv.id := fun hh =>
        hn.1 (hh ▸ List.mem_map_of_mem (fun p => p.1.id) hp)
      rcases step1_ok_d hs with hd | ⟨l, hdl, -, hd⟩ | ⟨v, hd⟩
      · rw [hd]; exact hm p (List.mem_cons_of_mem _ hp)
      · rw [hd]
        have := hm p (List.mem_cons_of_mem _ hp)
        rw [hdl] at this
        exact mem_eraseId_of_ne this hpid
      · rw [hd]
        exact mem_updateValue_of_ne (hm p (List.mem_cons_of_mem _ hp)) hpid
    obtain ⟨t', ht'⟩ := ih s.2.1 s.2.2 hn.2 hm'
    refine ⟨((s.1, rs) :: t'.1, t'.2), ?_⟩
    rw [phase1_cons, hs]
    simp only [ht', Except.map]

theorem step1_ids_sublist {u : Option String} {cv : CondVal}
    {rs : List Result} {d : Option (List CondVal)} {ne : List Result}
    {s : CondVal × Option (List CondVal) × List Result}
    (hs : step1 u cv rs d ne = .ok s) :
    List.Sublist (expIds s.2.1) (expIds d) := by
  rcases step1_ok_d hs with hd | ⟨l, hdl, -, hd⟩ | ⟨v, hd⟩
  · rw [hd]
  · rw [hd, hdl]
    exact (eraseId_sublist l cv.id).map CondVal.id
  · rw [hd, ids_updateValue]

theorem step1_mem_of_ne {u : Option String} {cv : CondVal}
    {rs : List Result} {d : Option (List CondVal)} {ne : List Result}
    {s : CondVal × Option (List CondVal) × List Result}
    (hs : step1 u cv rs d ne = .ok s) {x : CondVal}
    (hx : x ∈ expList d) (hne : x.id ≠ cv.id) : x ∈ expList s.2.1 := by
  rcases step1_ok_d hs with hd | ⟨l, hdl, -, hd⟩ | ⟨v, hd⟩
  · rw [hd]; exact hx
  · rw [hd]
    rw [hdl] at hx
    exact mem_eraseId_of_ne hx hne
  · rw [hd]
    exact mem_updateValue_of_ne hx hne

theorem phase1_ids_sublist {u : Option String} :
    ∀ (upd : List (CondVal × List Result)) (d : Option (List CondVal))
      (ne : List Result) t,
      phase1 u upd d ne = .ok t → List.Sublist (expIds t.2.1) (expIds d) := by
  intro upd
  induction upd with
  | nil =>
    intro d ne t h
    rw [phase1_nil, Except.ok.injEq] at h
    rw [← h]
  | cons p rest ih =>
    intro d ne t h
    obtain ⟨cv, rs⟩ := p
    rw [phase1_cons] at h
    cases hs : step1 u cv rs d ne with
    | error er =>
      simp only [hs] at h
      exact Except.noConfusion h
    | ok s =>
      simp only [hs] at h
      rcases except_map_ok.mp h with ⟨t', ht', hmap⟩
      have ht21 : t.2.1 = t'.2.1 := by rw [← hmap]
      rw [ht21]
      exact (ih s.2.1 s.2.2 t' ht').trans (step1_ids_sublist hs)

theorem phase1_pairs {u : Option String} (cv : CondVal) :
    ∀ (upd : List (CondVal × List Result)) (d : Option (List CondVal))
      (ne : List Result) t,
      (cv, ([] : List Result)) ∈ upd → phase1 u upd d ne = .ok t →
      (cv, ([] : List Result)) ∈ t.1 := by
  intro upd
  induction upd with
  | nil =>
    intro d ne t hm h
    exact absurd hm (List.not_mem_nil _)
  | cons p rest ih =>
    intro d ne t hm h
    obtain ⟨cv₀, rs₀⟩ := p
    rw [phase1_cons] at h
    cases hs : step1 u cv₀ rs₀ d ne with
    | error er =>
      simp only [hs] at h
      exact Except.noConfusion h
    | ok s =>
      simp only [hs] at h
      rcases except_map_ok.mp h with ⟨t', ht', hmap⟩
      rcases List.mem_cons.mp hm with hm | hm
      · obtain ⟨h1, h2⟩ := Prod.mk.injEq .. |>.mp hm
        subst h1
        subst h2
        rw [show step1 u cv [] d ne = .ok (cv, d, ne) from rfl,
          Except.ok.injEq] at hs
        rw [← hmap, ← hs]
        exact List.mem_cons_self _ _
      · rw [← hmap]
        exact List.mem_cons_of_mem _ (ih s.2.1 s.2.2 t' hm ht')

theorem phase1_agree_cases {u : Option String} (cv : CondVal) (r0 : Result)
    (rtl : List Result) :
    ∀ (upd : List (CondVal × List Result)) (d : Option (List CondVal))
      (ne : List Result) t,
      (upd.map (fun p => p.1.id)).Nodup →
      (expIds d).Nodup →
      (∀ p ∈ upd, p.1 ∈ expList d) →
      (cv, r0 :: rtl) ∈ upd →
      phase1 u upd d ne = .ok t →
      ((some r0.status = u ∧ cv.condition_node ≠ none) →
        cv.id ∉ expIds t.2.1) ∧
      (allSameStatus (r0 :: rtl) = true →
        ¬(some r0.status = u ∧ cv.condition_node ≠ none) →
        { cv with value := r0.status } ∈ expList t.2.1) := by
  intro upd
  induction upd with
  | nil =>
    intro d ne t _ _ _ hm h
    exact absurd hm (List.not_mem_nil _)
  | cons p rest ih =>
    intro d ne t hn1 hn2 hmir hm h
    obtain ⟨cv₀, rs₀⟩ := p
    rw [phase1_cons] at h
    cases hs : step1 u cv₀ rs₀ d ne with
    | error er =>
      simp only [hs] at h
      exact Except.noConfusion h
    | ok s =>
      simp only [hs] at h
      rcases except_map_ok.mp h with ⟨t', ht', hmap⟩
      have ht21 : t.2.1 = t'.2.1 := by rw [← hmap]
      simp only [List.map_cons, List.nodup_cons] at hn1
      have hrest_ne : ∀ p ∈ rest, p.1.id ≠ cv₀.id := by
        intro p hp hc
        exact hn1.1 (hc ▸ List.mem_map_of_mem (fun p => p.1.id) hp)
      rcases List.mem_cons.mp hm with hm | hm
      · obtain ⟨h1, h2⟩ := Prod.mk.injEq .. |>.mp hm
        subst h1
        subst h2
        have hcvd : cv ∈ expList d := hmir (cv, r0 :: rtl) (List.mem_cons_self _ _)
        constructor
        · intro hcond
          have hall : allSameStatus (r0 :: rtl) = true ∨
              allSameStatus (r0 :: rtl) ≠ true := em _
          -- the removal happens in both the agreeing and disagreeing branch
          -- whenever the condition node is non-default and (in the agreeing
          -- case) the status equals the unconditional status
          have hrem : s.2.1 = some (eraseId (expList d) cv.id) ∧
              (expList d).any (fun e => e.id = cv.id) = true := by
            have hrv : removeValue d cv.id =
                .ok (some (eraseId (expList d) cv.id)) := by
              cases hdc : d with
              | none =>
                rw [hdc] at hcvd
                exact absurd hcvd (List.not_mem_nil cv)
              | some l =>
                have hm' : cv ∈ l := by rw [hdc] at hcvd; exact hcvd
                simp only [removeValue, expList, Option.getD]
                rw [if_pos (List.any_eq_true.mpr ⟨cv, hm', by simp⟩)]
            rcases hall with hall | hall
            · simp only [step1, if_pos hall, if_pos hcond, hrv,
                Except.map, Except.ok.injEq] at hs
              refine ⟨by rw [← hs], List.any_eq_true.mpr ⟨cv, hcvd, by simp⟩⟩
            · rw [show allSameStatus (r0 :: rtl) ≠ true ↔
                  ¬ allSameStatus (r0 :: rtl) = true from Iff.rfl] at hall
              simp only [step1, if_neg hall, if_pos hcond.2, hrv,
                Except.map, Except.ok.injEq] at hs
              refine ⟨by rw [← hs], List.any_eq_true.mpr ⟨cv, hcvd, by simp⟩⟩
          rw [ht21]
          refine phase1_id_absent cv.id rest s.2.1 s.2.2 t' ?_ ht'
          rw [hrem.1]
          exact not_mem_ids_eraseId_self hn2
        · intro hall hcond
          simp only [step1, if_pos hall, if_neg hcond, Except.ok.injEq] at hs
          rw [ht21]
          refine phase1_mem_preserved cv.id { cv with value := r0.status }
            rest s.2.1 s.2.2 t' hrest_ne rfl ?_ ht'
          rw [← hs]
          show ({ cv with value := r0.status } : CondVal) ∈
            expList (updateValue d cv.id r0.status)
          rw [expList_updateValue]
          exact mem_map_update_self hcvd
      · have hmir' : ∀ p ∈ rest, p.1 ∈ expList s.2.1 := fun p hp =>
          step1_mem_of_ne hs (hmir p (List.mem_cons_of_mem _ hp))
            (hrest_ne p hp)
        have hn2' : (expIds s.2.1).Nodup := (step1_ids_sublist hs).nodup hn2
        have hres := ih s.2.1 s.2.2 t' hn1.2 hn2' hmir' hm ht'
        rw [ht21]
        exact hres

theorem ids_map_update (l : List CondVal) (k : Nat) (v : String) :
    (l.map (fun x => if x.id = k then { x with value := v } else x)).map
        CondVal.id = l.map CondVal.id := by
  induction l with
  | nil => rfl
  | cons e rest ih =>
    simp only [List.map_cons, ih]
    congr 1
    split <;> rfl

theorem phase1_shape {u : Option String} (cv : CondVal) :
    ∀ (upd : List (CondVal × List Result)) (d : Option (List CondVal))
      (ne : List Result) t (l₁ l₂ : List CondVal),
      (∀ p ∈ upd, p.1.id = cv.id → p.2 = ([] : List Result)) →
      d = some (l₁ ++ cv :: l₂) →
      phase1 u upd d ne = .ok t →
      ∃ l₁' l₂', t.2.1 = some (l₁' ++ cv :: l₂') ∧
        (∀ i ∈ l₁'.map CondVal.id, i ∈ l₁.map CondVal.id) ∧
        (∀ i ∈ l₂'.map CondVal.id, i ∈ l₂.map CondVal.id) := by
  intro upd
  induction upd with
  | nil =>
    intro d ne t l₁ l₂ _ hd h
    rw [phase1_nil, Except.ok.injEq] at h
    exact ⟨l₁, l₂, by rw [← h]; exact hd, fun i hi => hi, fun i hi => hi⟩
  | cons p rest ih =>
    intro d ne t l₁ l₂ hz hd h
    obtain ⟨cv₀, rs₀⟩ := p
    rw [phase1_cons] at h
    cases hs : step1 u cv₀ rs₀ d ne with
    | error er =>
      simp only [hs] at h
      exact Except.noConfusion h
    | ok s =>
      simp only [hs] at h
      rcases except_map_ok.mp h with ⟨t', ht', hmap⟩
      have ht21 : t.2.1 = t'.2.1 := by rw [← hmap]
      have hz' : ∀ p ∈ rest, p.1.id = cv.id → p.2 = ([] : List Result) :=
        fun p hp => hz p (List.mem_cons_of_mem _ hp)
      have hmid : ∃ m₁ m₂, s.2.1 = some (m₁ ++ cv :: m₂) ∧
          (∀ i ∈ m₁.map CondVal.id, i ∈ l₁.map CondVal.id) ∧
          (∀ i ∈ m₂.map CondVal.id, i ∈ l₂.map CondVal.id) := by
        cases rs₀ with
        | nil =>
          rw [show step1 u cv₀ [] d ne = .ok (cv₀, d, ne) from rfl,
            Except.ok.injEq] at hs
          refine ⟨l₁, l₂, ?_, fun i hi => hi, fun i hi => hi⟩
          rw [← hs]
          exact hd
        | cons q qtl =>
          have hne0 : cv.id ≠ cv₀.id := by
            intro hc
            have hq := hz (cv₀, q :: qtl) (List.mem_cons_self _ _) hc.symm
            exact List.noConfusion hq
          rcases step1_ok_d hs with hid | ⟨l, hdl, hany, hde⟩ | ⟨v, hde⟩
          · exact ⟨l₁, l₂, by rw [hid]; exact hd, fun i hi => hi,
              fun i hi => hi⟩
          · rw [hd, Option.some.injEq] at hdl
            by_cases hany₁ : l₁.any (fun x => x.id = cv₀.id) = true
            · refine ⟨eraseId l₁ cv₀.id, l₂, ?_,
                fun i hi => ids_eraseId_subset hi, fun i hi => hi⟩
              rw [hde, ← hdl, eraseId_append_left hany₁ (cv :: l₂)]
            · have hno : ∀ x ∈ l₁, x.id ≠ cv₀.id := by
                intro x hx hc
                exact hany₁ (List.any_eq_true.mpr ⟨x, hx, by simp [hc]⟩)
              refine ⟨l₁, eraseId l₂ cv₀.id, ?_, fun i hi => hi,
                fun i hi => ids_eraseId_subset hi⟩
              rw [hde, ← hdl, eraseId_append_right hno (cv :: l₂)]
              congr 1
              simp only [eraseId, if_neg hne0]
          · refine ⟨l₁.map (fun x => if x.id = cv₀.id then
                { x with value := v } else x),
              l₂.map (fun x => if x.id = cv₀.id then
                { x with value := v } else x), ?_, ?_, ?_⟩
            · rw [hde, hd]
              show some ((l₁ ++ cv :: l₂).map _) = _
              rw [List.map_append, List.map_cons, if_neg hne0]
            · intro i hi
              rw [ids_map_update] at hi
              exact hi
            · intro i hi
              rw [ids_map_update] at hi
              exact hi
      rcases hmid with ⟨m₁, m₂, hm, hsub₁, hsub₂⟩
      rcases ih s.2.1 s.2.2 t' m₁ m₂ hz' hm ht' with ⟨l₁', l₂', hfin, hs₁, hs₂⟩
      exact ⟨l₁', l₂', ht21 ▸ hfin, fun i hi => hsub₁ i (hs₁ i hi),
        fun i hi => hsub₂ i (hs₂ i hi)⟩

/-! ## C1: tracked conditions whose matches all agree -/

/-- C1: in the tracked-conditions pass of `coalesce_expected` (the loop
over `updated_expected`, run with the `unconditional_status` computed at
entry), a tracked condition whose matched Results all agree on the
status `r0.status` is removed from the stored `expected` attribute when
its predicate is non-default and the agreed status equals the
unconditional status; otherwise the stored entry is kept with its value
updated to the agreed status.  Hypotheses: tracked and stored ids are
without duplicates (fresh object identities) and every tracked
conditional value is a stored entry (the mirror invariant established
when the attribute is parsed). -/
theorem coalesce_agreeing_condition (st : TestNodeState) (cv : CondVal)
    (r0 : Result) (rtl : List Result)
    (hn1 : (st.updated_expected.map (fun p => p.1.id)).Nodup)
    (hn2 : (expIds st.expected).Nodup)
    (hmir : ∀ p ∈ st.updated_expected, p.1 ∈ expList st.expected)
    (hmem : (cv, r0 :: rtl) ∈ st.updated_expected)
    (hall : allSameStatus (r0 :: rtl) = true) :
    ∃ t, phase1 (uncondStatus st) st.updated_expected st.expected
        st.new_expected = .ok t ∧
      ((some r0.status = uncondStatus st ∧ cv.condition_node ≠ none) →
        cv.id ∉ expIds t.2.1) ∧
      (¬(some r0.status = uncondStatus st ∧ cv.condition_node ≠ none) →
        { cv with value := r0.status } ∈ expList t.2.1) := by
  obtain ⟨t, ht⟩ :=
    phase1_ok st.updated_expected st.expected st.new_expected hn1 hmir
  have hc := phase1_agree_cases cv r0 rtl st.updated_expected st.expected
    st.new_expected t hn1 hn2 hmir hmem ht
  exact ⟨t, ht, hc.1, fun h => hc.2 hall h⟩

/-- Witness for `coalesce_agreeing_condition`: a non-default tracked
condition whose single match agrees with the unconditional status
(`default_status = "PASS"`, no stored unconditional entry) is removed:
its id no longer occurs among the stored entries. -/
theorem coalesce_agreeing_condition_witness :
    ∃ t, phase1 (uncondStatus
        { updated_expected :=
            [(⟨0, some (.variable "debug"), "FAIL"⟩,
              [⟨[("debug", PVal.bool true)], "PASS"⟩])],
          new_expected := [], default_status := some "PASS",
          expected := some [⟨0, some (.variable "debug"), "FAIL"⟩],
          has_expected := true, modified := true, next_id := 1 })
        [(⟨0, some (.variable "debug"), "FAIL"⟩,
          [⟨[("debug", PVal.bool true)], "PASS"⟩])]
        (some [⟨0, some (.variable "debug"), "FAIL"⟩]) [] = .ok t ∧
      0 ∉ expIds t.2.1 := by
  obtain ⟨t, ht, h1, -⟩ := coalesce_agreeing_condition
    { updated_expected :=
        [(⟨0, some (.variable "debug"), "FAIL"⟩,
          [⟨[("debug", PVal.bool true)], "PASS"⟩])],
      new_expected := [], default_status := some "PASS",
      expected := some [⟨0, some (.variable "debug"), "FAIL"⟩],
      has_expected := true, modified := true, next_id := 1 }
    ⟨0, some (.variable "debug"), "FAIL"⟩
    ⟨[("debug", PVal.bool true)], "PASS"⟩ []
    (by decide) (by decide) (by decide) (by decide) (by decide)
  exact ⟨t, ht, h1 (by decide)⟩

/-! ## C2: tracked conditions with no matches are untouched -/

/-- C2: in the tracked-conditions pass of `coalesce_expected`, a tracked
condition whose matched-results list is empty is left completely
unchanged: the pair `(cv, [])` is still tracked afterwards, and the
stored list still contains the very same entry `cv` (same predicate,
same status), with every entry before it drawn from the entries that
were before it and every entry after it drawn from the entries that were
after it (same relative position). -/
theorem coalesce_untested_condition (st : TestNodeState) (cv : CondVal)
    (l₁ l₂ : List CondVal)
    (hn1 : (st.updated_expected.map (fun p => p.1.id)).Nodup)
    (hmir : ∀ p ∈ st.updated_expected, p.1 ∈ expList st.expected)
    (hmem : (cv, ([] : List Result)) ∈ st.updated_expected)
    (hsplit : st.expected = some (l₁ ++ cv :: l₂)) :
    ∃ t, phase1 (uncondStatus st) st.updated_expected st.expected
        st.new_expected = .ok t ∧
      (cv, ([] : List Result)) ∈ t.1 ∧
      ∃ l₁' l₂', t.2.1 = some (l₁' ++ cv :: l₂') ∧
        (∀ i ∈ l₁'.map CondVal.id, i ∈ l₁.map CondVal.id) ∧
        (∀ i ∈ l₂'.map CondVal.id, i ∈ l₂.map CondVal.id) := by
  obtain ⟨t, ht⟩ :=
    phase1_ok st.updated_expected st.expected st.new_expected hn1 hmir
  have hz : ∀ p ∈ st.updated_expected, p.1.id = cv.id →
      p.2 = ([] : List Result) := by
    intro p hp hid
    have heq : p = (cv, ([] : List Result)) :=
      List.inj_on_of_nodup_map hn1 hp hmem hid
    rw [heq]
  exact ⟨t, ht,
    phase1_pairs cv st.updated_expected st.expected st.new_expected t hmem ht,
    phase1_shape cv st.updated_expected st.expected st.new_expected t l₁ l₂
      hz hsplit ht⟩

/-- Witness for `coalesce_untested_condition`: with one tracked
condition carrying no matches, the stored entry survives phase 1 in
place. -/
theorem coalesce_untested_condition_witness :
    ∃ t, phase1 (uncondStatus
        { updated_expected := [(⟨0, some (.variable "debug"), "FAIL"⟩, [])],
          new_expected := [], default_status := some "PASS",
          expected := some [⟨0, some (.variable "debug"), "FAIL"⟩],
          has_expected := true, modified := false, next_id := 1 })
        [(⟨0, some (.variable "debug"), "FAIL"⟩, [])]
        (some [⟨0, some (.variable "debug"), "FAIL"⟩]) [] = .ok t ∧
      (⟨0, some (.variable "debug"), "FAIL"⟩, ([] : List Result)) ∈ t.1 := by
  obtain ⟨t, ht, h1, -⟩ := coalesce_untested_condition
    { updated_expected := [(⟨0, some (.variable "debug"), "FAIL"⟩, [])],
      new_expected := [], default_status := some "PASS",
      expected := some [⟨0, some (.variable "debug"), "FAIL"⟩],
      has_expected := true, modified := false, next_id := 1 }
    ⟨0, some (.variable "debug"), "FAIL"⟩ [] []
    (by decide) (by decide) (by decide) (by decide)
  exact ⟨t, ht, h1⟩

/-! ## Invariants for the final cleanup: C7 and C8 -/

/-- The number of unconditional entries stored under `expected`. -/
def uncondCount (d : Option (List CondVal)) : Nat :=
  (expList d).countP (fun e => e.condition_node = none)

theorem ids_map_of_preserve {f : CondVal → CondVal}
    (hf : ∀ e, (f e).id = e.id) (l : List CondVal) :
    (l.map f).map CondVal.id = l.map CondVal.id := by
  induction l with
  | nil => rfl
  | cons e rest ih => simp only [List.map_cons, ih, hf e]

theorem countP_uncond_map_of_preserve {f : CondVal → CondVal}
    (hf : ∀ e, (f e).condition_node = e.condition_node) (l : List CondVal) :
    (l.map f).countP (fun e => decide (e.condition_node = none)) =
      l.countP (fun e => decide (e.condition_node = none)) := by
  induction l with
  | nil => rfl
  | cons e rest ih =>
    rw [List.map_cons, List.countP_cons, List.countP_cons, ih, hf e]

theorem uncondCount_updateValue (d : Option (List CondVal)) (k : Nat)
    (v : String) : uncondCount (updateValue d k v) = uncondCount d := by
  unfold uncondCount
  rw [expList_updateValue]
  exact countP_uncond_map_of_preserve (fun e => by split <;> rfl) (expList d)

theorem step1_uncondCount {u : Option String} {cv : CondVal}
    {rs : List Result} {d : Option (List CondVal)} {ne : List Result}
    {s : CondVal × Option (List CondVal) × List Result}
    (hs : step1 u cv rs d ne = .ok s) :
    uncondCount s.2.1 ≤ uncondCount d := by
  rcases step1_ok_d hs with hd | ⟨l, hdl, -, hd⟩ | ⟨v, hd⟩
  · rw [hd]
  · rw [hd, hdl]
    exact (eraseId_sublist l cv.id).countP_le _
  · rw [hd, uncondCount_updateValue]

theorem phase1_uncondCount {u : Option String} :
    ∀ (upd : List (CondVal × List Result)) (d : Option (List CondVal))
      (ne : List Result) t,
      phase1 u upd d ne = .ok t → uncondCount t.2.1 ≤ uncondCount d := by
  intro upd
  induction upd with
  | nil =>
    intro d ne t h
    rw [phase1_nil, Except.ok.injEq] at h
    rw [← h]
  | cons p rest ih =>
    intro d ne t h
    obtain ⟨cv, rs⟩ := p
    rw [phase1_cons] at h
    cases hs : step1 u cv rs d ne with
    | error er =>
      simp only [hs] at h
      exact Except.noConfusion h
    | ok s =>
      simp only [hs] at h
      rcases except_map_ok.mp h with ⟨t', ht', hmap⟩
      have ht21 : t.2.1 = t'.2.1 := by rw [← hmap]
      rw [ht21]
      exact (ih s.2.1 s.2.2 t' ht').trans (step1_uncondCount hs)

theorem setExpected_inv {d : Option (List CondVal)} {cond : Option Expr}
    {v : String} {nid : Nat} {hasN : Bool}
    (hb : ∀ i ∈ expIds d, i < nid) (hn : (expIds d).Nodup)
    (hc : uncondCount d ≤ 1) :
    (∀ i ∈ expIds (setExpected d cond v nid hasN).1,
      i < (setExpected d cond v nid hasN).2.1) ∧
    (expIds (setExpected d cond v nid hasN).1).Nodup ∧
    uncondCount (setExpected d cond v nid hasN).1 ≤ 1 := by
  cases d with
  | none =>
    refine ⟨?_, ?_, ?_⟩
    · intro i hi
      simp only [setExpected, expIds, expList, Option.getD, List.map_cons,
        List.map_nil, List.mem_singleton] at hi ⊢
      omega
    · simp [setExpected, expIds, expList]
    · cases cond <;> simp [setExpected, uncondCount, expList, List.countP_cons]
  | some l =>
    have hb' : ∀ i ∈ l.map CondVal.id, i < nid := hb
    have hn' : (l.map CondVal.id).Nodup := hn
    have hnid : nid ∉ l.map CondVal.id := fun hin =>
      absurd (hb' nid hin) (lt_irrefl nid)
    cases cond with
    | none =>
      by_cases hu : l.any (fun e => e.condition_node = none) = true
      · simp only [setExpected, if_pos hu]
        refine ⟨?_, ?_, ?_⟩
        · intro i hi
          apply hb'
          have : (l.map (fun e => if e.condition_node = none then
              { e with value := v } else e)).map CondVal.id =
              l.map CondVal.id :=
            ids_map_of_preserve (fun e => by split <;> rfl) l
          rw [show expIds (some (l.map (fun e =>
            if e.condition_node = none then { e with value := v } else e))) =
            (l.map (fun e => if e.condition_node = none then
              { e with value := v } else e)).map CondVal.id from rfl, this] at hi
          exact hi
        · have : (l.map (fun e => if e.condition_node = none then
              { e with value := v } else e)).map CondVal.id =
              l.map CondVal.id :=
            ids_map_of_preserve (fun e => by split <;> rfl) l
          show ((l.map _).map CondVal.id).Nodup
          rw [this]
          exact hn'
        · show ((l.map _).countP _) ≤ 1
          rw [countP_uncond_map_of_preserve (fun e => by split <;> rfl) l]
          exact hc
      · simp only [setExpected, if_neg hu]
        refine ⟨?_, ?_, ?_⟩
        · intro i hi
          show i < nid + 1
          rw [show expIds (some (l ++ [(⟨nid, none, v⟩ : CondVal)])) =
            (l ++ [(⟨nid, none, v⟩ : CondVal)]).map CondVal.id from rfl,
            List.map_append] at hi
          rcases List.mem_append.mp hi with hi | hi
          · exact (hb' i hi).trans (Nat.lt_succ_self nid)
          · simp only [List.map_cons, List.map_nil,
              List.mem_singleton] at hi
            omega
        · show ((l ++ [(⟨nid, none, v⟩ : CondVal)]).map CondVal.id).Nodup
          rw [List.map_append]
          rw [List.nodup_append]
          exact ⟨hn', List.nodup_singleton _,
            fun i hi hj => by
              simp only [List.map_cons, List.map_nil,
                List.mem_singleton] at hj
              exact hnid (hj ▸ hi)⟩
        · show ((l ++ [(⟨nid, none, v⟩ : CondVal)]).countP _) ≤ 1
          rw [List.countP_append]
          have hz : l.countP (fun e => decide (e.condition_node = none)) = 0 :=
            List.countP_eq_zero.mpr (fun e he hp => by
              apply hu
              exact List.any_eq_true.mpr ⟨e, he, hp⟩)
          rw [hz]
          simp [List.countP_cons]
    | some c =>
      simp only [setExpected]
      refine ⟨?_, ?_, ?_⟩
      · intro i hi
        show i < nid + 1
        rw [show expIds (some (l ++ [(⟨nid, some c, v⟩ : CondVal)])) =
          (l ++ [(⟨nid, some c, v⟩ : CondVal)]).map CondVal.id from rfl,
          List.map_append] at hi
        rcases List.mem_append.mp hi with hi | hi
        · exact (hb' i hi).trans (Nat.lt_succ_self nid)
        · simp only [List.map_cons, List.map_nil, List.mem_singleton] at hi
          omega
      · show ((l ++ [(⟨nid, some c, v⟩ : CondVal)]).map CondVal.id).Nodup
        rw [List.map_append, List.nodup_append]
        exact ⟨hn', List.nodup_singleton _,
          fun i hi hj => by
            simp only [List.map_cons, List.map_nil,
              List.mem_singleton] at hj
            exact hnid (hj ▸ hi)⟩
      · show ((l ++ [(⟨nid, some c, v⟩ : CondVal)]).countP _) ≤ 1
        rw [List.countP_append]
        have h0 : ([(⟨nid, some c, v⟩ : CondVal)].countP
            (fun e => decide (e.condition_node = none))) = 0 := by
          simp [List.countP_cons]
        have hcl : l.countP (fun e => decide (e.condition_node = none)) ≤ 1 := hc
        omega

theorem foldSet_inv (uncond : Option String) :
    ∀ (conds : List (ConditionalNode × String))
      (acc : Option (List CondVal) × Nat × Bool),
      (∀ i ∈ expIds acc.1, i < acc.2.1) → (expIds acc.1).Nodup →
      uncondCount acc.1 ≤ 1 →
      (∀ i ∈ expIds (conds.foldl
          (fun acc cs =>
            if some cs.2 ≠ uncond then
              setExpected acc.1 (some cs.1.condition) cs.2 acc.2.1 acc.2.2
            else acc) acc).1,
        i < (conds.foldl
          (fun acc cs =>
            if some cs.2 ≠ uncond then
              setExpected acc.1 (some cs.1.condition) cs.2 acc.2.1 acc.2.2
            else acc) acc).2.1) ∧
      (expIds (conds.foldl
          (fun acc cs =>
            if some cs.2 ≠ uncond then
              setExpected acc.1 (some cs.1.condition) cs.2 acc.2.1 acc.2.2
            else acc) acc).1).Nodup ∧
      uncondCount (conds.foldl
          (fun acc cs =>
            if some cs.2 ≠ uncond then
              setExpected acc.1 (some cs.1.condition) cs.2 acc.2.1 acc.2.2
            else acc) acc).1 ≤ 1 := by
  intro conds
  induction conds with
  | nil => exact fun acc hb hn hc => ⟨hb, hn, hc⟩
  | cons cs rest ih =>
    intro acc hb hn hc
    rw [List.foldl_cons]
    by_cases hne : some cs.2 ≠ uncond
    · rw [if_pos hne]
      obtain ⟨hb', hn', hc'⟩ := setExpected_inv hb hn hc
      exact ih _ hb' hn' hc'
    · rw [if_neg hne]
      exact ih acc hb hn hc

theorem phase2_inv {uncond ds : Option String} {updEmpty : Bool}
    {ne : List Result} {d : Option (List CondVal)} {nid : Nat} {hasN : Bool}
    {t : Option (List CondVal) × Nat × Bool}
    (hb : ∀ i ∈ expIds d, i < nid) (hn : (expIds d).Nodup)
    (hc : uncondCount d ≤ 1)
    (h : phase2 uncond ds updEmpty ne d nid hasN = .ok t) :
    (∀ i ∈ expIds t.1, i < t.2.1) ∧ (expIds t.1).Nodup ∧
    uncondCount t.1 ≤ 1 := by
  cases ne with
  | nil =>
    rw [show phase2 uncond ds updEmpty [] d nid hasN = .ok (d, nid, hasN)
      from rfl, Except.ok.injEq] at h
    rw [← h]
    exact ⟨hb, hn, hc⟩
  | cons r0 rtl =>
    simp only [phase2] at h
    by_cases hall : allSameStatus (r0 :: rtl) = true ∧ updEmpty = true
    · rw [if_pos hall] at h
      by_cases hds : some r0.status ≠ ds
      · rw [if_pos hds, Except.ok.injEq] at h
        rw [← h]
        exact setExpected_inv hb hn hc
      · rw [if_neg hds, Except.ok.injEq] at h
        rw [← h]
        exact ⟨hb, hn, hc⟩
    · rw [if_neg hall] at h
      cases hg : group_conditionals (r0 :: rtl) with
      | error e =>
        simp only [hg] at h
        exact Except.noConfusion h
      | ok conds =>
        simp only [hg, Except.ok.injEq] at h
        rw [← h]
        exact foldSet_inv uncond conds (d, nid, hasN) hb hn hc

theorem getLast?_decomp {α : Type} :
    ∀ {l : List α} {e : α}, l.getLast? = some e → l = l.dropLast ++ [e]
  | [], e, h => Option.noConfusion h
  | [a], e, h => by
    rw [show ([a] : List α).getLast? = some a from rfl,
      Option.some.injEq] at h
    rw [← h]
    rfl
  | a :: b :: rest, e, h => by
    rw [List.getLast?_cons_cons] at h
    have hrec := getLast?_decomp h
    rw [show (a :: b :: rest).dropLast = a :: (b :: rest).dropLast from rfl,
      List.cons_append, ← hrec]

theorem cleanup1_frame (s : TestNodeState) :
    (cleanup1 s).updated_expected = s.updated_expected ∧
    (cleanup1 s).new_expected = s.new_expected ∧
    (cleanup1 s).default_status = s.default_status ∧
    (cleanup1 s).modified = s.modified ∧
    (cleanup1 s).next_id = s.next_id ∧
    (cleanup1 s).has_expected = s.has_expected := by
  unfold cleanup1
  split
  · split
    · split
      · exact ⟨rfl, rfl, rfl, rfl, rfl, rfl⟩
      · exact ⟨rfl, rfl, rfl, rfl, rfl, rfl⟩
    · exact ⟨rfl, rfl, rfl, rfl, rfl, rfl⟩
  · exact ⟨rfl, rfl, rfl, rfl, rfl, rfl⟩

theorem cleanup_frame (s : TestNodeState) :
    (cleanup s).updated_expected = s.updated_expected ∧
    (cleanup s).new_expected = s.new_expected ∧
    (cleanup s).default_status = s.default_status ∧
    (cleanup s).modified = s.modified ∧
    (cleanup s).next_id = s.next_id := by
  have h1 := cleanup1_frame s
  by_cases hemp : (cleanup1 s).expected = some []
  · simp only [cleanup, if_pos hemp]
    exact ⟨h1.1, h1.2.1, h1.2.2.1, h1.2.2.2.1, h1.2.2.2.2.1⟩
  · simp only [cleanup, if_neg hemp]
    exact ⟨h1.1, h1.2.1, h1.2.2.1, h1.2.2.2.1, h1.2.2.2.2.1⟩

theorem cleanup1_spec (s : TestNodeState)
    (hn : (expIds s.expected).Nodup)
    (hc : uncondCount s.expected ≤ 1) :
    ∀ e, (expList (cleanup1 s).expected).getLast? = some e →
      ¬(e.condition_node = none ∧ some e.value = s.default_status) := by
  intro e he
  cases hse : s.expected with
  | none =>
    have heq : cleanup1 s = s := by simp only [cleanup1, hse]
    rw [heq, hse] at he
    exact absurd he (by simp [expList])
  | some l =>
    cases hl : l.getLast? with
    | none =>
      have heq : cleanup1 s = s := by simp only [cleanup1, hse, hl]
      rw [heq, hse] at he
      rw [show expList (some l) = l from rfl, hl] at he
      exact Option.noConfusion he
    | some e₀ =>
      by_cases hcnd : e₀.condition_node = none ∧ some e₀.value = s.default_status
      · have heq : cleanup1 s = { s with expected := some (eraseId l e₀.id) } := by
          simp only [cleanup1, hse, hl]
          rw [if_pos hcnd]
        rw [heq] at he
        have hdec := getLast?_decomp hl
        have hn' : (l.map CondVal.id).Nodup := by rw [hse] at hn; exact hn
        have hnl : ∀ x ∈ l.dropLast, x.id ≠ e₀.id := by
          intro x hx hid
          rw [hdec, List.map_append, List.nodup_append] at hn'
          exact hn'.2.2 (List.mem_map_of_mem _ hx) (by simp [hid])
        have herase : eraseId l e₀.id = l.dropLast := by
          conv => lhs; rw [hdec]
          rw [eraseId_append_right hnl [e₀]]
          simp [eraseId]
        rw [show expList ({ s with expected := some (eraseId l e₀.id)
            } : TestNodeState).expected = eraseId l e₀.id from rfl,
          herase] at he
        have hz : l.dropLast.countP
            (fun x => decide (x.condition_node = none)) = 0 := by
          have hcl : l.countP
              (fun x => decide (x.condition_node = none)) ≤ 1 := by
            rw [hse] at hc
            exact hc
          rw [hdec, List.countP_append] at hcl
          have h1 : ([e₀].countP (fun x => decide (x.condition_node = none)))
              = 1 := by simp [List.countP_cons, hcnd.1]
          omega
        have hmem : e ∈ l.dropLast := by
          rw [getLast?_decomp he]
          exact List.mem_append_right _ (List.mem_singleton.mpr rfl)
        intro hcontra
        have hC := List.countP_eq_zero.mp hz e hmem
        exact hC (by simp [hcontra.1])
      · have heq : cleanup1 s = s := by
          simp only [cleanup1, hse, hl]
          rw [if_neg hcnd]
        rw [heq, hse] at he
        rw [show expList (some l) = l from rfl, hl, Option.some.injEq] at he
        rw [he] at hcnd
        exact hcnd

theorem cleanup_spec (s : TestNodeState)
    (hn : (expIds s.expected).Nodup)
    (hc : uncondCount s.expected ≤ 1) :
    (∀ e, (expList (cleanup s).expected).getLast? = some e →
      ¬(e.condition_node = none ∧ some e.value = s.default_status)) ∧
    ((cleanup s).expected = some [] → (cleanup s).has_expected = false) := by
  by_cases hemp : (cleanup1 s).expected = some []
  · simp only [cleanup, if_pos hemp]
    constructor
    · intro e he
      rw [show ({ cleanup1 s with has_expected := false
          } : TestNodeState).expected = (cleanup1 s).expected from rfl,
        hemp] at he
      exact absurd he (by simp [expList])
    · intro _
      trivial
  · simp only [cleanup, if_neg hemp]
    exact ⟨cleanup1_spec s hn hc, fun h => absurd h hemp⟩

theorem setHas_eq_self (s : TestNodeState) (h : s.has_expected = false) :
    { s with has_expected := false } = s := by
  cases s
  simp only at h
  rw [h]

theorem cleanup_fixed (s : TestNodeState)
    (h1 : ∀ e, (expList s.expected).getLast? = some e →
      ¬(e.condition_node = none ∧ some e.value = s.default_status))
    (h2 : s.expected = some [] → s.has_expected = false) :
    cleanup s = s := by
  have hc1 : cleanup1 s = s := by
    cases hse : s.expected with
    | none => simp only [cleanup1, hse]
    | some l =>
      cases hl : l.getLast? with
      | none => simp only [cleanup1, hse, hl]
      | some e₀ =>
        simp only [cleanup1, hse, hl]
        rw [if_neg (h1 e₀ (by rw [hse]; exact hl))]
  by_cases hemp : s.expected = some []
  · simp only [cleanup, hc1, if_pos hemp]
    exact setHas_eq_self s (h2 hemp)
  · simp only [cleanup, hc1, if_neg hemp]

theorem cleanup_idem (s : TestNodeState)
    (hn : (expIds s.expected).Nodup)
    (hc : uncondCount s.expected ≤ 1) :
    cleanup (cleanup s) = cleanup s := by
  apply cleanup_fixed
  · have h1 := (cleanup_spec s hn hc).1
    rw [← (cleanup_frame s).2.2.1] at h1
    exact h1
  · exact (cleanup_spec s hn hc).2

/-! ## C7: the final cleanup of `coalesce_expected` -/

/-- C7: after any successful `coalesce_expected`, the last stored entry
of the `expected` attribute is never an unconditional entry whose value
equals `default_status` (such a trailing entry is dropped by the final
block), and when the attribute has zero entries its `KeyValueNode` is
removed from the node entirely.  Hypotheses: stored ids are distinct and
below the fresh-id counter (object identity), and at most one
unconditional entry is stored (the attribute's list has at most one
default fallback). -/
theorem coalesce_final_cleanup (st st' : TestNodeState)
    (hn : (expIds st.expected).Nodup)
    (hb : ∀ i ∈ expIds st.expected, i < st.next_id)
    (hc : uncondCount st.expected ≤ 1)
    (h : coalesce_expected st = .ok st') :
    (∀ e, (expList st'.expected).getLast? = some e →
      ¬(e.condition_node = none ∧ some e.value = st'.default_status)) ∧
    (st'.expected = some [] → st'.has_expected = false) := by
  unfold coalesce_expected at h
  cases h1 : phase1 (uncondStatus st) st.updated_expected st.expected
      st.new_expected with
  | error e =>
    rw [h1] at h
    exact Except.noConfusion h
  | ok t1 =>
    rw [h1] at h
    cases h2 : phase2 (uncondStatus st) st.default_status t1.1.isEmpty
        t1.2.2 t1.2.1 st.next_id st.has_expected with
    | error e =>
      simp only [h2] at h
      exact Except.noConfusion h
    | ok t2 =>
      simp only [h2, Except.ok.injEq] at h
      have hsub := phase1_ids_sublist st.updated_expected st.expected
        st.new_expected t1 h1
      have hn1 : (expIds t1.2.1).Nodup := hsub.nodup hn
      have hb1 : ∀ i ∈ expIds t1.2.1, i < st.next_id :=
        fun i hi => hb i (hsub.subset hi)
      have hc1 : uncondCount t1.2.1 ≤ 1 :=
        (phase1_uncondCount st.updated_expected st.expected
          st.new_expected t1 h1).trans hc
      obtain ⟨hb2, hn2, hc2⟩ := phase2_inv hb1 hn1 hc1 h2
      have hspec := cleanup_spec
        { st with updated_expected := t1.1, new_expected := t1.2.2, expected := t2.1, next_id := t2.2.1, has_expected := t2.2.2 }
        hn2 hc2
      rw [← h]
      refine ⟨?_, hspec.2⟩
      intro e he
      have hd : (cleanup { st with updated_expected := t1.1, new_expected := t1.2.2, expected := t2.1, next_id := t2.2.1, has_expected := t2.2.2 }).default_status = st.default_status :=
        (cleanup_frame _).2.2.1
      rw [hd]
      exact hspec.1 e he

/-- Witness for `coalesce_final_cleanup`: a node whose only stored entry
is the unconditional default `"PASS"` (untested in this run) loses both
the entry and the `expected` attribute node. -/
theorem coalesce_final_cleanup_witness :
    ∃ st', coalesce_expected
      { updated_expected := [(⟨0, none, "PASS"⟩, [])],
        new_expected := [], default_status := some "PASS",
        expected := some [⟨0, none, "PASS"⟩], has_expected := true,
        modified := false, next_id := 1 } = .ok st' ∧
      (st'.expected = some [] → st'.has_expected = false) ∧
      st'.expected = some [] ∧ st'.has_expected = false := by
  have h : coalesce_expected
      { updated_expected := [(⟨0, none, "PASS"⟩, [])],
        new_expected := [], default_status := some "PASS",
        expected := some [⟨0, none, "PASS"⟩], has_expected := true,
        modified := false, next_id := 1 } =
      .ok { updated_expected := [(⟨0, none, "PASS"⟩, [])],
            new_expected := [], default_status := some "PASS",
            expected := some [], has_expected := false,
            modified := false, next_id := 1 } := by decide
  refine ⟨_, h, ?_, rfl, rfl⟩
  exact (coalesce_final_cleanup _ _ (by decide) (by decide) (by decide) h).2

/-! ## C8: idempotence of `coalesce_expected` -/

theorem phase1_no_results (u : Option String) :
    ∀ (upd : List (CondVal × List Result)) (d : Option (List CondVal))
      (ne : List Result),
      (∀ p ∈ upd, p.2 = ([] : List Result)) →
      phase1 u upd d ne = .ok (upd, d, ne) := by
  intro upd
  induction upd with
  | nil => exact fun d ne _ => rfl
  | cons p rest ih =>
    intro d ne hz
    obtain ⟨cv, rs⟩ := p
    have hrs : rs = [] := hz (cv, rs) (List.mem_cons_self _ _)
    subst hrs
    have := ih d ne (fun p hp => hz p (List.mem_cons_of_mem _ hp))
    simp only [phase1, this, Except.map]

theorem coalesce_no_evidence (st : TestNodeState)
    (hrs : ∀ p ∈ st.updated_expected, p.2 = ([] : List Result))
    (hne : st.new_expected = []) :
    coalesce_expected st = .ok (cleanup st) := by
  have h1 := phase1_no_results (uncondStatus st) st.updated_expected
    st.expected st.new_expected hrs
  have h2 : phase2 (uncondStatus st) st.default_status
      st.updated_expected.isEmpty st.new_expected st.expected st.next_id
      st.has_expected = .ok (st.expected, st.next_id, st.has_expected) := by
    rw [hne]
    rfl
  simp only [coalesce_expected, h1, h2]

/-- C8 (amended): `coalesce_expected` is idempotent on a node that holds
no pending evidence at all — every tracked condition's matched-results
list is empty and the unplaced-evidence list is empty — provided the
stored ids are distinct and at most one unconditional entry is stored.
With pending evidence the operation is not idempotent, because the code
never clears the `updated_expected` match lists or `new_expected`
(see `coalesce_not_idempotent_cex`). -/
theorem coalesce_idempotent_no_evidence (st st₁ : TestNodeState)
    (hrs : ∀ p ∈ st.updated_expected, p.2 = ([] : List Result))
    (hne : st.new_expected = [])
    (hn : (expIds st.expected).Nodup)
    (hc : uncondCount st.expected ≤ 1)
    (h : coalesce_expected st = .ok st₁) :
    coalesce_expected st₁ = .ok st₁ := by
  have hco := coalesce_no_evidence st hrs hne
  rw [hco, Except.ok.injEq] at h
  have hfr := cleanup_frame st
  have hrs₁ : ∀ p ∈ st₁.updated_expected, p.2 = ([] : List Result) := by
    rw [← h, hfr.1]
    exact hrs
  have hne₁ : st₁.new_expected = [] := by
    rw [← h, hfr.2.1]
    exact hne
  rw [coalesce_no_evidence st₁ hrs₁ hne₁, ← h, cleanup_idem st hn hc]

/-- C8 (counterexample): with pending evidence, calling
`coalesce_expected` twice differs from calling it once.  Two unplaced
Results with differing statuses synthesize one `os == "linux" → FAIL`
entry; the second call re-reads the still-uncleared `new_expected`,
synthesizes again and appends a duplicate entry: two stored entries
instead of one. -/
theorem coalesce_not_idempotent_cex :
    ((coalesce_expected
        { updated_expected := [],
          new_expected := [⟨[("os", PVal.str "linux")], "FAIL"⟩,
                           ⟨[("os", PVal.str "win")], "PASS"⟩],
          default_status := some "PASS", expected := none,
          has_expected := false, modified := true,
          next_id := 0 } >>= coalesce_expected).toOption.map
      (fun s => (expList s.expected).length) = some 2) ∧
    ((coalesce_expected
        { updated_expected := [],
          new_expected := [⟨[("os", PVal.str "linux")], "FAIL"⟩,
                           ⟨[("os", PVal.str "win")], "PASS"⟩],
          default_status := some "PASS", expected := none,
          has_expected := false, modified := true,
          next_id := 0 }).toOption.map
      (fun s => (expList s.expected).length) = some 1) := by
  decide

/-- Witness for `coalesce_idempotent_no_evidence`: a node whose
trailing default entry is dropped by the first call reaches a state the
second call leaves untouched. -/
theorem coalesce_idempotent_no_evidence_witness :
    coalesce_expected
      { updated_expected := [(⟨0, none, "PASS"⟩, [])],
        new_expected := [], default_status := some "PASS",
        expected := some [], has_expected := false,
        modified := false, next_id := 1 } =
    .ok { updated_expected := [(⟨0, none, "PASS"⟩, [])],
          new_expected := [], default_status := some "PASS",
          expected := some [], has_expected := false,
          modified := false, next_id := 1 } :=
  coalesce_idempotent_no_evidence
    { updated_expected := [(⟨0, none, "PASS"⟩, [])],
      new_expected := [], default_status := some "PASS",
      expected := some [⟨0, none, "PASS"⟩], has_expected := true,
      modified := false, next_id := 1 }
    { updated_expected := [(⟨0, none, "PASS"⟩, [])],
      new_expected := [], default_status := some "PASS",
      expected := some [], has_expected := false,
      modified := false, next_id := 1 }
    (by decide) rfl (by decide) (by decide) (by decide)

end ManifestUpdate
